import Mathlib

/-!
Verification of the minimax + alpha-beta chess agent in `B23CM1046.py`
(`get_best_move`, `_alphabeta`, `evaluate_board`, `_pst_value`, `_has_king`,
`_out_of_time`) against its natural-language specification.

The agent is embedded shallowly: the stateful Python methods become explicit
state-passing Lean functions.  The external board collaborator (`board.py`,
`config.py`, both absent from the sources) is modelled from the spec as an
abstract record of pure operations, with `undo_move` realised by an explicit
LIFO history stack, exactly as the spec's collaborator contract demands.
Python's `math.inf` scores are modelled by the three-case type `Score`.
Wall-clock time is modelled by a monotone tick counter: each call of
`_out_of_time` consumes one tick, and the deadline is a threshold on the
number of ticks (every monotone sequence of deadline answers arises this way).
-/

/-- Piece identities of the 4×8 mini-chess variant (white/black pawn, knight,
bishop, king, plus the empty-square sentinel), as used by `evaluate_board`,
`_pst_value` and `_has_king`. -/
inductive Piece where
  | empty
  | wp | bp
  | wn | bn
  | wb | bb
  | wk | bk
deriving DecidableEq, Repr, Fintype

/-- The collaborator's `get_game_state()` result. -/
inductive GameState where
  | normal
  | checkmate
  | stalemate
deriving DecidableEq, Repr

/-- Search scores: Python mixes integer evaluations with `math.inf` /
`-math.inf` loop initializers, so scores are integers extended with the two
infinities. -/
inductive Score where
  | negInf
  | fin (v : Int)
  | posInf
deriving DecidableEq, Repr

namespace Score

/-- Boolean `≤` on scores, matching Python's comparison of floats where the
finite values are integers. -/
def ble : Score → Score → Bool
  | negInf, _ => true
  | _, posInf => true
  | fin a, fin b => a ≤ b
  | posInf, fin _ => false
  | posInf, negInf => false
  | fin _, negInf => false

instance : LE Score := ⟨fun a b => ble a b = true⟩
instance : LT Score := ⟨fun a b => ble b a = false⟩

instance : DecidableEq Score := inferInstance

instance (a b : Score) : Decidable (a ≤ b) := by
  show Decidable (ble a b = true); infer_instance

instance (a b : Score) : Decidable (a < b) := by
  show Decidable (ble b a = false); infer_instance

/-- Python's `max` on scores. -/
def maxS (a b : Score) : Score := if ble a b then b else a

/-- Python's `min` on scores. -/
def minS (a b : Score) : Score := if ble b a then b else a

theorem le_def {a b : Score} : a ≤ b ↔ ble a b = true := Iff.rfl

theorem lt_def {a b : Score} : a < b ↔ ble b a = false := Iff.rfl

theorem not_le {a b : Score} : ¬ a ≤ b ↔ b < a := by
  simp [le_def, lt_def]

theorem not_lt {a b : Score} : ¬ a < b ↔ b ≤ a := by
  simp [le_def, lt_def]

theorem le_refl (a : Score) : a ≤ a := by
  cases a <;> simp [le_def, ble]

theorem le_trans {a b c : Score} (h1 : a ≤ b) (h2 : b ≤ c) : a ≤ c := by
  cases a <;> cases b <;> cases c <;>
    simp_all [le_def, ble] <;> omega

theorem le_antisymm {a b : Score} (h1 : a ≤ b) (h2 : b ≤ a) : a = b := by
  cases a <;> cases b <;> simp_all [le_def, ble] <;> omega

theorem le_total (a b : Score) : a ≤ b ∨ b ≤ a := by
  cases a <;> cases b <;> simp [le_def, ble] <;> omega

theorem lt_irrefl (a : Score) : ¬ a < a := by
  cases a <;> simp [lt_def, ble]

theorem lt_of_lt_of_le {a b c : Score} (h1 : a < b) (h2 : b ≤ c) : a < c := by
  cases a <;> cases b <;> cases c <;> simp_all [le_def, lt_def, ble] <;> omega

theorem lt_of_le_of_lt {a b c : Score} (h1 : a ≤ b) (h2 : b < c) : a < c := by
  cases a <;> cases b <;> cases c <;> simp_all [le_def, lt_def, ble] <;> omega

theorem le_of_lt {a b : Score} (h : a < b) : a ≤ b := by
  cases a <;> cases b <;> simp_all [le_def, lt_def, ble] <;> omega

theorem le_of_eq {a b : Score} (h : a = b) : a ≤ b := h ▸ le_refl a

theorem negInf_le (a : Score) : negInf ≤ a := by cases a <;> simp [le_def, ble]

theorem le_posInf (a : Score) : a ≤ posInf := by cases a <;> simp [le_def, ble]

theorem fin_le_fin {a b : Int} : (fin a ≤ fin b) ↔ a ≤ b := by
  simp [le_def, ble]

theorem fin_lt_fin {a b : Int} : (fin a < fin b) ↔ a < b := by
  simp [lt_def, ble]

theorem fin_lt_posInf (a : Int) : fin a < posInf := by simp [lt_def, ble]

theorem negInf_lt_fin (a : Int) : negInf < fin a := by simp [lt_def, ble]

theorem le_maxS_left (a b : Score) : a ≤ maxS a b := by
  unfold maxS; split
  · exact le_def.mpr (by assumption)
  · exact le_refl a

theorem le_maxS_right (a b : Score) : b ≤ maxS a b := by
  unfold maxS; split
  · exact le_refl b
  · rcases le_total a b with h | h
    · simp_all [le_def]
    · exact h

theorem maxS_le {a b c : Score} (h1 : a ≤ c) (h2 : b ≤ c) : maxS a b ≤ c := by
  unfold maxS; split <;> assumption

theorem maxS_le_iff {a b c : Score} : maxS a b ≤ c ↔ a ≤ c ∧ b ≤ c := by
  constructor
  · intro h
    exact ⟨le_trans (le_maxS_left a b) h, le_trans (le_maxS_right a b) h⟩
  · intro ⟨h1, h2⟩; exact maxS_le h1 h2

theorem le_maxS_iff {a b c : Score} : c ≤ maxS a b ↔ c ≤ a ∨ c ≤ b := by
  unfold maxS; split
  · constructor
    · intro h; exact Or.inr h
    · intro h
      rcases h with h | h
      · exact le_trans h (le_def.mpr (by assumption))
      · exact h
  · constructor
    · intro h; exact Or.inl h
    · intro h
      rcases h with h | h
      · exact h
      · refine le_trans h ?_
        rcases le_total b a with h' | h'
        · exact h'
        · simp_all [le_def]

theorem maxS_eq_left_or_right (a b : Score) : maxS a b = a ∨ maxS a b = b := by
  unfold maxS; split
  · exact Or.inr rfl
  · exact Or.inl rfl

theorem lt_maxS_iff {a b c : Score} : c < maxS a b ↔ c < a ∨ c < b := by
  rcases maxS_eq_left_or_right a b with h | h <;> rw [h]
  · constructor
    · intro h'; exact Or.inl h'
    · intro h'
      rcases h' with h' | h'
      · exact h'
      · refine lt_of_lt_of_le h' ?_
        have := le_maxS_right a b; rwa [h] at this
  · constructor
    · intro h'; exact Or.inr h'
    · intro h'
      rcases h' with h' | h'
      · refine lt_of_lt_of_le h' ?_
        have := le_maxS_left a b; rwa [h] at this
      · exact h'

theorem maxS_lt_iff {a b c : Score} : maxS a b < c ↔ a < c ∧ b < c := by
  rcases maxS_eq_left_or_right a b with h | h <;> rw [h]
  · constructor
    · intro h'
      refine ⟨h', lt_of_le_of_lt ?_ h'⟩
      have := le_maxS_right a b; rwa [h] at this
    · exact fun h' => h'.1
  · constructor
    · intro h'
      refine ⟨lt_of_le_of_lt ?_ h', h'⟩
      have := le_maxS_left a b; rwa [h] at this
    · exact fun h' => h'.2

theorem minS_le_left (a b : Score) : minS a b ≤ a := by
  unfold minS; split
  · exact le_def.mpr (by assumption)
  · exact le_refl a

theorem minS_le_right (a b : Score) : minS a b ≤ b := by
  unfold minS; split
  · exact le_refl b
  · rcases le_total a b with h | h
    · exact h
    · simp_all [le_def]

theorem le_minS {a b c : Score} (h1 : c ≤ a) (h2 : c ≤ b) : c ≤ minS a b := by
  unfold minS; split <;> assumption

theorem le_minS_iff {a b c : Score} : c ≤ minS a b ↔ c ≤ a ∧ c ≤ b := by
  constructor
  · intro h
    exact ⟨le_trans h (minS_le_left a b), le_trans h (minS_le_right a b)⟩
  · intro ⟨h1, h2⟩; exact le_minS h1 h2

theorem minS_le_iff {a b c : Score} : minS a b ≤ c ↔ a ≤ c ∨ b ≤ c := by
  unfold minS; split
  · constructor
    · intro h; exact Or.inr h
    · intro h
      rcases h with h | h
      · exact le_trans (le_def.mpr (by assumption)) h
      · exact h
  · constructor
    · intro h; exact Or.inl h
    · intro h
      rcases h with h | h
      · exact h
      · refine le_trans ?_ h
        rcases le_total a b with h' | h'
        · exact h'
        · simp_all [le_def]

theorem minS_eq_left_or_right (a b : Score) : minS a b = a ∨ minS a b = b := by
  unfold minS; split
  · exact Or.inr rfl
  · exact Or.inl rfl

theorem minS_lt_iff {a b c : Score} : minS a b < c ↔ a < c ∨ b < c := by
  rcases minS_eq_left_or_right a b with h | h <;> rw [h]
  · constructor
    · intro h'; exact Or.inl h'
    · intro h'
      rcases h' with h' | h'
      · exact h'
      · refine lt_of_le_of_lt ?_ h'
        have := minS_le_right a b; rwa [h] at this
  · constructor
    · intro h'; exact Or.inr h'
    · intro h'
      rcases h' with h' | h'
      · refine lt_of_le_of_lt ?_ h'
        have := minS_le_left a b; rwa [h] at this
      · exact h'

theorem lt_minS_iff {a b c : Score} : c < minS a b ↔ c < a ∧ c < b := by
  rcases minS_eq_left_or_right a b with h | h <;> rw [h]
  · constructor
    · intro h'
      refine ⟨h', lt_of_lt_of_le h' ?_⟩
      have := minS_le_right a b; rwa [h] at this
    · exact fun h' => h'.1
  · constructor
    · intro h'
      refine ⟨lt_of_lt_of_le h' ?_, h'⟩
      have := minS_le_left a b; rwa [h] at this
    · exact fun h' => h'.2

theorem maxS_negInf_left (a : Score) : maxS negInf a = a := by
  cases a <;> rfl

theorem minS_posInf_left (a : Score) : minS posInf a = a := by
  cases a <;> rfl

theorem fin_maxS (a b : Int) : maxS (fin a) (fin b) = fin (max a b) := by
  unfold maxS ble
  split <;> simp_all <;> omega

theorem fin_minS (a b : Int) : minS (fin a) (fin b) = fin (min a b) := by
  unfold minS ble
  split <;> simp_all <;> omega

end Score

/-! ## Evaluation tables

`B23CM1046.py` imports `PIECE_VALUES`, the PST tables and the board
dimensions from `config.py`, which is not part of the sources. -/

/-- Modelled from the spec: the board is "a compact 4×8 chess variant" whose
grid is iterated as `for r in range(BOARD_HEIGHT): for c in range(BOARD_WIDTH)`
and whose PSTs are mirrored via `BOARD_HEIGHT - 1 - r`; we fix eight ranks. -/
def BOARD_HEIGHT : Nat := 8

/-- Modelled from the spec: four files of the 4×8 variant. -/
def BOARD_WIDTH : Nat := 4

/-- Modelled from the spec: the evaluation tables of `config.py` (absent from
the sources).  `pieceVal` is `PIECE_VALUES.get(·, 0)`, a material value whose
"sign encodes color"; the four PSTs are the 2D bonus tables, "authored for one
color" (white) and read mirrored/negated for black by `_pst_value`. -/
structure Config where
  pieceVal : Piece → Int
  pawnPst : Nat → Nat → Int
  knightPst : Nat → Nat → Int
  bishopPst : Nat → Nat → Int
  kingPstLate : Nat → Nat → Int

/-- `_pst_value(piece, r, c)`: PST value, positive for white, negative for
black, with black's cell mirrored vertically (`BOARD_HEIGHT - 1 - r`).
Unrecognized pieces (here: the empty square) contribute zero. -/
def _pst_value (cfg : Config) : Piece → Nat → Nat → Int
  | Piece.wp, r, c => cfg.pawnPst r c
  | Piece.bp, r, c => -cfg.pawnPst (BOARD_HEIGHT - 1 - r) c
  | Piece.wn, r, c => cfg.knightPst r c
  | Piece.bn, r, c => -cfg.knightPst (BOARD_HEIGHT - 1 - r) c
  | Piece.wb, r, c => cfg.bishopPst r c
  | Piece.bb, r, c => -cfg.bishopPst (BOARD_HEIGHT - 1 - r) c
  | Piece.wk, r, c => cfg.kingPstLate r c
  | Piece.bk, r, c => -cfg.kingPstLate (BOARD_HEIGHT - 1 - r) c
  | Piece.empty, _, _ => 0

/-- Contribution of one grid cell to the material/positional sum: empty
squares are skipped (`continue`), occupied ones add
`PIECE_VALUES.get(p, 0) + self._pst_value(p, r, c)`. -/
def cellScore (cfg : Config) (p : Piece) (r c : Nat) : Int :=
  if p = Piece.empty then 0 else cfg.pieceVal p + _pst_value cfg p r c

/-- The double loop of `evaluate_board` over the whole grid. -/
def boardSum (cfg : Config) (g : Nat → Nat → Piece) : Int :=
  ((List.range BOARD_HEIGHT).map fun r =>
    ((List.range BOARD_WIDTH).map fun c => cellScore cfg (g r c) r c).sum).sum

/-- `_has_king(white)`: scan the grid for the requested king. -/
def _has_king (g : Nat → Nat → Piece) (white : Bool) : Bool :=
  (List.range BOARD_HEIGHT).any fun r => (List.range BOARD_WIDTH).any fun c =>
    g r c = (if white then Piece.wk else Piece.bk)

/-- The raw sum of `evaluate_board` before the final root-perspective
normalization: material + PST, then the ±2 check adjustment, then the ±300
king-absence terms (`score` just before line 87's conditional negation).
`wtm` is `self.board.white_to_move`, `inCheck` is `self.board.is_in_check()`. -/
def rawEvaluate (cfg : Config) (rootW : Bool) (g : Nat → Nat → Piece)
    (wtm inCheck : Bool) : Int :=
  let score := boardSum cfg g
  let score := if inCheck then (if wtm = rootW then score - 2 else score + 2)
               else score
  let score := if _has_king g true then score else score - 300
  if _has_king g false then score else score + 300

/-- `evaluate_board()`: heuristic evaluation from the root side's perspective
(the raw white-perspective sum, negated when the root side is black). -/
def evaluate_board (cfg : Config) (rootW : Bool) (g : Nat → Nat → Piece)
    (wtm inCheck : Bool) : Int :=
  let score := rawEvaluate cfg rootW g wtm inCheck
  if rootW then score else -score

/-- Spec-side definition for comparison (claim C6): the same evaluation with
the check adjustment omitted. -/
def evaluate_board_noCheck (cfg : Config) (rootW : Bool)
    (g : Nat → Nat → Piece) : Int :=
  let score := boardSum cfg g
  let score := if _has_king g true then score else score - 300
  let score := if _has_king g false then score else score + 300
  if rootW then score else -score

/-- Spec-side definition (claim C9): the color-mirror of a piece. -/
def mirrorPiece : Piece → Piece
  | Piece.empty => Piece.empty
  | Piece.wp => Piece.bp
  | Piece.bp => Piece.wp
  | Piece.wn => Piece.bn
  | Piece.bn => Piece.wn
  | Piece.wb => Piece.bb
  | Piece.bb => Piece.wb
  | Piece.wk => Piece.bk
  | Piece.bk => Piece.wk

/-- Spec-side definition (claim C9): the color-mirrored board: each piece
replaced by its opposite-color piece and the board flipped vertically. -/
def mirrorGrid (g : Nat → Nat → Piece) : Nat → Nat → Piece :=
  fun r c => mirrorPiece (g (BOARD_HEIGHT - 1 - r) c)

/-! ## The board collaborator and the search state -/

/-- Modelled from the spec: the narrow contract the engine consumes from the
external board collaborator (`board.py`, absent from the sources): ordered
legal-move enumeration, in-place move application, check query, game-state
classification, side to move, and a readable grid of piece identities.
`apply_move` is the pure effect of `make_move`; `undo_move` is realised below
by a LIFO history stack ("reverses exactly the most recent `make_move`"). -/
structure Rules (B M : Type) where
  legal_moves : B → List M
  apply_move : B → M → B
  in_check : B → Bool
  game_state : B → GameState
  white_to_move : B → Bool
  grid : B → Nat → Nat → Piece

/-- The agent's configuration surface: the collaborator, the evaluation
tables, `self.depth`, and the time budget.  Modelled from the spec: the
wall-clock budget becomes `limit`, the number of `_out_of_time` polls that
answer `false` before the deadline expires (`none` = a generous budget that
never expires); this captures every monotone expiry pattern. -/
structure Ctx (B M : Type) where
  rules : Rules B M
  cfg : Config
  depth : Nat
  limit : Option Nat

/-- The mutable world threaded through a search call: the shared board, the
undo history stack, the tick clock, `self.nodes_expanded`, and two ghost
counters recording how many `make_move` / `undo_move` commands were issued. -/
structure St (B : Type) where
  board : B
  history : List B
  ticks : Nat
  nodes : Nat
  makes : Nat
  undos : Nat
deriving Repr, DecidableEq

/-- `_out_of_time()`: has the deadline expired at the current clock? -/
def _out_of_time {B M : Type} (ctx : Ctx B M) (s : St B) : Bool :=
  match ctx.limit with
  | none => false
  | some l => l ≤ s.ticks

/-- One wall-clock reading: time advances at each `_out_of_time` poll. -/
def tick {B : Type} (s : St B) : St B := { s with ticks := s.ticks + 1 }

/-- `self.board.make_move(mv)`: apply the move in place, remembering the
previous position on the history stack. -/
def makeMove {B M : Type} (ctx : Ctx B M) (mv : M) (s : St B) : St B :=
  { s with board := ctx.rules.apply_move s.board mv,
           history := s.board :: s.history,
           makes := s.makes + 1 }

/-- `self.board.undo_move()`: restore the most recently saved position. -/
def undoMove {B : Type} (s : St B) : St B :=
  match s.history with
  | [] => { s with undos := s.undos + 1 }
  | b :: h => { s with board := b, history := h, undos := s.undos + 1 }

/-- `self.nodes_expanded += 1`. -/
def incNodes {B : Type} (s : St B) : St B := { s with nodes := s.nodes + 1 }

/-- `self.evaluate_board()` as invoked during a search rooted at `rootW`. -/
def evalBoard {B M : Type} (ctx : Ctx B M) (rootW : Bool) (b : B) : Int :=
  evaluate_board ctx.cfg rootW (ctx.rules.grid b)
    (ctx.rules.white_to_move b) (ctx.rules.in_check b)

/-! ## The search engine (`_alphabeta`, `get_best_move`) -/

/-- The move loop of `_alphabeta` (lines 109-138): per move, poll the clock
(breaking out if the deadline passed), make the move, count the node, recurse
via `child` with flipped maximizing flag, undo the move, fold the returned
value into the running max/min, tighten alpha (resp. beta), and prune once
`alpha >= beta`. -/
def abLoop {B M : Type} (ctx : Ctx B M)
    (child : Score → Score → Bool → St B → Score × St B) :
    List M → Score → Score → Score → Bool → St B → Score × St B
  | [], _, _, value, _, s => (value, s)
  | mv :: rest, alpha, beta, value, maximizing, s =>
    let s1 := tick s
    if _out_of_time ctx s then (value, s1)
    else
      let s2 := incNodes (makeMove ctx mv s1)
      let r := child alpha beta (!maximizing) s2
      let s3 := undoMove r.2
      if maximizing then
        let value' := Score.maxS value r.1
        let alpha' := Score.maxS alpha value'
        if Score.ble beta alpha' then (value', s3)
        else abLoop ctx child rest alpha' beta value' maximizing s3
      else
        let value' := Score.minS value r.1
        let beta' := Score.minS beta value'
        if Score.ble beta' alpha then (value', s3)
        else abLoop ctx child rest alpha beta' value' maximizing s3

/-- The body of `_alphabeta` (lines 91-138) at one node, parameterized by the
recursive call for the next-shallower depth (`child`) and by whether the
remaining depth is zero.  Order as in the source: deadline poll first, then
checkmate, then stalemate-or-depth-zero, then the empty-move fallback, then
the move loop seeded with `-inf` (maximizing) or `+inf` (minimizing). -/
def abStep {B M : Type} (ctx : Ctx B M) (rootW : Bool) (depthZero : Bool)
    (child : Score → Score → Bool → St B → Score × St B)
    (alpha beta : Score) (maximizing : Bool) (s : St B) : Score × St B :=
  let s1 := tick s
  if _out_of_time ctx s then (Score.fin (evalBoard ctx rootW s1.board), s1)
  else if ctx.rules.game_state s1.board = GameState.checkmate then
    (Score.fin (if ctx.rules.white_to_move s1.board = rootW then -1000000
                else 1000000), s1)
  else if ctx.rules.game_state s1.board = GameState.stalemate ∨
          depthZero = true then
    (Score.fin (evalBoard ctx rootW s1.board), s1)
  else
    match ctx.rules.legal_moves s1.board with
    | [] => (Score.fin (evalBoard ctx rootW s1.board), s1)
    | mv :: rest =>
      abLoop ctx child (mv :: rest) alpha beta
        (if maximizing then Score.negInf else Score.posInf) maximizing s1

/-- `_alphabeta(depth, alpha, beta, maximizing)`: depth-indexed recursion over
`abStep`; at depth zero the `depth == 0` test fires before any move is tried,
so the (never consulted) child is a stub. -/
def _alphabeta {B M : Type} (ctx : Ctx B M) (rootW : Bool) :
    Nat → Score → Score → Bool → St B → Score × St B
  | 0 => abStep ctx rootW true fun _ _ _ s => (Score.fin 0, s)
  | d + 1 => abStep ctx rootW false (_alphabeta ctx rootW d)

/-- The root move loop of `get_best_move` (lines 42-53): per root move, poll
the clock (keeping the best found so far if the deadline passed), make the
move, count it, search the reply position as the minimizing side at
`self.depth - 1`, undo, keep the move on strict improvement (`>`), and
tighten alpha.  The root never prunes (beta stays `+inf`). -/
def gbmLoop {B M : Type} (ctx : Ctx B M) (rootW : Bool) :
    List M → Score → Score → Score → M → St B → M × St B
  | [], _, _, _, best_move, s => (best_move, s)
  | mv :: rest, alpha, beta, best_val, best_move, s =>
    let s1 := tick s
    if _out_of_time ctx s then (best_move, s1)
    else
      let s2 := incNodes (makeMove ctx mv s1)
      let r := _alphabeta ctx rootW (ctx.depth - 1) alpha beta false s2
      let s3 := undoMove r.2
      if best_val < r.1 then
        gbmLoop ctx rootW rest (Score.maxS alpha r.1) beta r.1 mv s3
      else
        gbmLoop ctx rootW rest (Score.maxS alpha r.1) beta best_val best_move s3

/-- `get_best_move()` (lines 28-53): reset the diagnostic counter and the
clock, capture the root side, return the `None` sentinel on an empty legal
move list, otherwise run the root loop seeded with the first legal move and
`-inf`. -/
def get_best_move {B M : Type} (ctx : Ctx B M) (s0 : St B) : Option M × St B :=
  let s := { s0 with nodes := 0, ticks := 0 }
  let rootW := ctx.rules.white_to_move s.board
  match ctx.rules.legal_moves s.board with
  | [] => (none, s)
  | m :: rest =>
    let r := gbmLoop ctx rootW (m :: rest) Score.negInf Score.posInf
      Score.negInf m s
    (some r.1, r.2)

/-! ## Specification-side definitions (unpruned minimax, root selection) -/

/-- One node of the spec's reference search, parameterized like `abStep`:
spec-side definition following the spec's words — "an unpruned full minimax of
the same depth over the same game tree": identical terminal classification and
leaf evaluation, but every child is explored and folded with plain max/min,
with no deadline and no pruning. -/
def mmStep {B M : Type} (ctx : Ctx B M) (rootW : Bool) (depthZero : Bool)
    (child : Bool → B → Int) (maximizing : Bool) (b : B) : Int :=
  if ctx.rules.game_state b = GameState.checkmate then
    (if ctx.rules.white_to_move b = rootW then -1000000 else 1000000)
  else if ctx.rules.game_state b = GameState.stalemate ∨ depthZero = true then
    evalBoard ctx rootW b
  else
    match ctx.rules.legal_moves b with
    | [] => evalBoard ctx rootW b
    | m :: rest =>
      rest.foldl
        (fun acc mv =>
          let v := child (!maximizing) (ctx.rules.apply_move b mv)
          if maximizing then max acc v else min acc v)
        (child (!maximizing) (ctx.rules.apply_move b m))

/-- Spec-side definition: the exact (unpruned, untimed) minimax value. -/
def minimaxVal {B M : Type} (ctx : Ctx B M) (rootW : Bool) :
    Nat → Bool → B → Int
  | 0 => mmStep ctx rootW true fun _ _ => 0
  | d + 1 => mmStep ctx rootW false (minimaxVal ctx rootW d)

/-- Spec-side definition: earliest-argmax selection — walk the candidates in
order and switch only on strict improvement, so ties keep the earliest move. -/
def specSelect {M : Type} (g : M → Int) : List M → M → Int → M
  | [], bm, _ => bm
  | mv :: rest, bm, bv =>
    if bv < g mv then specSelect g rest mv (g mv) else specSelect g rest bm bv

/-- Spec-side definition: the root move an unpruned full minimax of the same
depth selects, with the same earliest-move tie-breaking as the root loop. -/
def minimaxRootSpec {B M : Type} (ctx : Ctx B M) (b : B) : Option M :=
  let rootW := ctx.rules.white_to_move b
  match ctx.rules.legal_moves b with
  | [] => none
  | m :: rest =>
    let g := fun mv =>
      minimaxVal ctx rootW (ctx.depth - 1) false (ctx.rules.apply_move b mv)
    some (specSelect g rest m (g m))

/-! ## Pure image of the timed search (proof device)

With a generous budget (`limit = none`) every `_out_of_time` poll answers
`false`, the search never breaks on time, and the value computed by
`_alphabeta` depends only on the current board; `pureLoop`/`pureStep`/`pureAB`
are that value, with the state threading stripped.  The bridge lemmas below
prove they agree with `abLoop`/`abStep`/`_alphabeta`. -/

/-- The move loop of `_alphabeta` with the deadline and state stripped. -/
def pureLoop {B M : Type} (ctx : Ctx B M)
    (child : Score → Score → Bool → B → Score) (b : B) :
    List M → Score → Score → Score → Bool → Score
  | [], _, _, value, _ => value
  | mv :: rest, alpha, beta, value, maximizing =>
    let v := child alpha beta (!maximizing) (ctx.rules.apply_move b mv)
    if maximizing then
      let value' := Score.maxS value v
      let alpha' := Score.maxS alpha value'
      if Score.ble beta alpha' then value'
      else pureLoop ctx child b rest alpha' beta value' maximizing
    else
      let value' := Score.minS value v
      let beta' := Score.minS beta value'
      if Score.ble beta' alpha then value'
      else pureLoop ctx child b rest alpha beta' value' maximizing

/-- One node of `_alphabeta` with the deadline and state stripped. -/
def pureStep {B M : Type} (ctx : Ctx B M) (rootW : Bool) (depthZero : Bool)
    (child : Score → Score → Bool → B → Score)
    (alpha beta : Score) (maximizing : Bool) (b : B) : Score :=
  if ctx.rules.game_state b = GameState.checkmate then
    Score.fin (if ctx.rules.white_to_move b = rootW then -1000000 else 1000000)
  else if ctx.rules.game_state b = GameState.stalemate ∨ depthZero = true then
    Score.fin (evalBoard ctx rootW b)
  else
    match ctx.rules.legal_moves b with
    | [] => Score.fin (evalBoard ctx rootW b)
    | mv :: rest =>
      pureLoop ctx child b (mv :: rest) alpha beta
        (if maximizing then Score.negInf else Score.posInf) maximizing

/-- `_alphabeta` with the deadline and state stripped. -/
def pureAB {B M : Type} (ctx : Ctx B M) (rootW : Bool) :
    Nat → Score → Score → Bool → B → Score
  | 0 => pureStep ctx rootW true fun _ _ _ _ => Score.fin 0
  | d + 1 => pureStep ctx rootW false (pureAB ctx rootW d)

/-! ## Root instrumentation (proof device for C7)

`rootExamined` replays the root loop and records, in order, each root move
that was fully examined (made, searched, undone, compared) together with the
value the search returned for it; `selFold` is the selection the root loop
applies to that record. -/

/-- The list of (move, value) pairs the root loop examines before returning,
threading alpha exactly as `gbmLoop` does (`alpha = max(alpha, val)`). -/
def rootExamined {B M : Type} (ctx : Ctx B M) (rootW : Bool) :
    List M → Score → Score → St B → List (M × Score) × St B
  | [], _, _, s => ([], s)
  | mv :: rest, alpha, beta, s =>
    let s1 := tick s
    if _out_of_time ctx s then ([], s1)
    else
      let s2 := incNodes (makeMove ctx mv s1)
      let r := _alphabeta ctx rootW (ctx.depth - 1) alpha beta false s2
      let s3 := undoMove r.2
      let rec' := rootExamined ctx rootW rest (Score.maxS alpha r.1) beta s3
      ((mv, r.1) :: rec'.1, rec'.2)

/-- The strict-improvement fold the root loop applies to examined pairs. -/
def selFold {M : Type} : Score → M → List (M × Score) → M
  | _, bm, [] => bm
  | bv, bm, (mv, v) :: rest =>
    if bv < v then selFold v mv rest else selFold bv bm rest

/-! ## Concrete instances for witnesses and counterexamples -/

/-- A small concrete evaluation configuration. -/
def demoCfg : Config where
  pieceVal p :=
    match p with
    | Piece.empty => 0
    | Piece.wp => 10 | Piece.bp => -10
    | Piece.wn => 30 | Piece.bn => -30
    | Piece.wb => 33 | Piece.bb => -33
    | Piece.wk => 4 | Piece.bk => -4
  pawnPst r c := (r : Int) + c
  knightPst r c := (r : Int) - c
  bishopPst r c := (c : Int)
  kingPstLate r c := (r : Int)

/-- A small concrete game over `Nat` boards and `Nat` moves: the children of
board `b` are `2*b + m` for moves `m ∈ [0, 1]`, boards from 4 up have no
moves, no position is terminal, and the grid content varies with `b`. -/
def demoRules : Rules Nat Nat where
  legal_moves b := if b < 4 then [0, 1] else []
  apply_move b m := 2 * b + m
  in_check _ := false
  game_state _ := GameState.normal
  white_to_move _ := true
  grid b r c :=
    if r = 0 ∧ c = 0 ∧ b % 2 = 0 then Piece.wp
    else if r = 1 ∧ c = 0 ∧ b % 3 = 0 then Piece.bn
    else if r = 2 ∧ c = 1 ∧ b % 5 = 0 then Piece.wb
    else Piece.empty

/-- A fresh search state rooted at board `b`. -/
def sInit (b : Nat) : St Nat :=
  { board := b, history := [], ticks := 0, nodes := 0, makes := 0, undos := 0 }

/-- The demo game searched to depth 2 under a generous budget. -/
def ctxNone : Ctx Nat Nat :=
  { rules := demoRules, cfg := demoCfg, depth := 2, limit := none }

/-- The demo game with a deadline that has already expired when
`get_best_move` performs its first poll. -/
def ctxExpired : Ctx Nat Nat :=
  { rules := demoRules, cfg := demoCfg, depth := 2, limit := some 0 }

/-- The demo game with a deadline expiring between `_alphabeta`'s entry poll
and its first loop poll. -/
def ctxRace : Ctx Nat Nat :=
  { rules := demoRules, cfg := demoCfg, depth := 2, limit := some 1 }

/-- A demo game whose every position is classified checkmate. -/
def mateRules : Rules Nat Nat where
  legal_moves _ := []
  apply_move b _ := b
  in_check _ := true
  game_state _ := GameState.checkmate
  white_to_move b := b % 2 = 0
  grid _ _ _ := Piece.empty

/-- The checkmate demo game with a roomy deadline. -/
def ctxMate : Ctx Nat Nat :=
  { rules := mateRules, cfg := demoCfg, depth := 3, limit := some 10 }

/-! ## Make/undo discipline: the search restores the shared position -/

/-- The state relation claimed by the make/undo invariant: the board and the
undo stack are restored, and the number of `make_move` commands issued equals
the number of `undo_move` commands issued (stated additively). -/
def presPair {B : Type} (s s' : St B) : Prop :=
  s'.board = s.board ∧ s'.history = s.history ∧
    s'.makes + s.undos = s'.undos + s.makes

theorem presPair_refl {B : Type} (s : St B) : presPair s s :=
  ⟨rfl, rfl, Nat.add_comm _ _⟩

theorem presPair_trans {B : Type} {s1 s2 s3 : St B}
    (h1 : presPair s1 s2) (h2 : presPair s2 s3) : presPair s1 s3 := by
  obtain ⟨a1, b1, c1⟩ := h1
  obtain ⟨a2, b2, c2⟩ := h2
  exact ⟨a2.trans a1, b2.trans b1, by omega⟩

theorem presPair_tick {B : Type} (s : St B) : presPair s (tick s) :=
  ⟨rfl, rfl, Nat.add_comm _ _⟩

/-- One make/recurse/undo block restores the position: if the recursive call
preserves board, stack and balance, then so does
`undoMove ((child …) (incNodes (makeMove ctx mv s1))).2` relative to `s1`. -/
theorem mru_pres {B M : Type} (ctx : Ctx B M) (mv : M) (s1 : St B)
    (r : Score × St B)
    (hr : presPair (incNodes (makeMove ctx mv s1)) r.2) :
    presPair s1 (undoMove r.2) := by
  obtain ⟨hb, hh, hm⟩ := hr
  simp only [incNodes, makeMove] at hb hh hm
  refine ⟨?_, ?_, ?_⟩
  · simp only [undoMove, hh]
  · simp only [undoMove, hh]
  · simp only [undoMove, hh]
    omega

theorem abLoop_pres {B M : Type} (ctx : Ctx B M)
    (child : Score → Score → Bool → St B → Score × St B)
    (hc : ∀ a b m s, presPair s (child a b m s).2) :
    ∀ (l : List M) (alpha beta value : Score) (maximizing : Bool) (s : St B),
      presPair s (abLoop ctx child l alpha beta value maximizing s).2 := by
  intro l
  induction l with
  | nil => intro alpha beta value maximizing s; exact presPair_refl s
  | cons mv rest ih =>
    intro alpha beta value maximizing s
    have hblock : ∀ a b m, presPair s
        (undoMove (child a b m (incNodes (makeMove ctx mv (tick s)))).2) :=
      fun a b m => presPair_trans (presPair_tick s)
        (mru_pres ctx mv (tick s) _ (hc _ _ _ _))
    simp only [abLoop]
    split
    · exact presPair_tick s
    · split <;> split <;>
        first
          | exact hblock _ _ _
          | exact presPair_trans (hblock _ _ _) (ih _ _ _ _ _)

theorem abStep_pres {B M : Type} (ctx : Ctx B M) (rootW depthZero : Bool)
    (child : Score → Score → Bool → St B → Score × St B)
    (hc : ∀ a b m s, presPair s (child a b m s).2)
    (alpha beta : Score) (maximizing : Bool) (s : St B) :
    presPair s (abStep ctx rootW depthZero child alpha beta maximizing s).2 := by
  simp only [abStep]
  split
  · exact presPair_tick s
  · split
    · exact presPair_tick s
    · split
      · exact presPair_tick s
      · split
        · exact presPair_tick s
        · exact presPair_trans (presPair_tick s)
            (abLoop_pres ctx child hc _ _ _ _ _ _)

/-- Every `_alphabeta` call — on every exit path, timed out or pruned —
returns the shared position (board and undo stack) exactly as it found it,
with make/undo commands in balance. -/
theorem _alphabeta_pres {B M : Type} (ctx : Ctx B M) (rootW : Bool)
    (depth : Nat) (alpha beta : Score) (maximizing : Bool) (s : St B) :
    presPair s (_alphabeta ctx rootW depth alpha beta maximizing s).2 := by
  induction depth generalizing alpha beta maximizing s with
  | zero =>
    exact abStep_pres ctx rootW true _ (fun _ _ _ s => presPair_refl s)
      alpha beta maximizing s
  | succ d ih =>
    exact abStep_pres ctx rootW false _ (fun a b m s => ih a b m s)
      alpha beta maximizing s

theorem gbmLoop_pres {B M : Type} (ctx : Ctx B M) (rootW : Bool) :
    ∀ (l : List M) (alpha beta best_val : Score) (best_move : M) (s : St B),
      presPair s (gbmLoop ctx rootW l alpha beta best_val best_move s).2 := by
  intro l
  induction l with
  | nil => intro alpha beta best_val best_move s; exact presPair_refl s
  | cons mv rest ih =>
    intro alpha beta best_val best_move s
    have hstep : presPair s
        (undoMove (_alphabeta ctx rootW (ctx.depth - 1) alpha beta false
          (incNodes (makeMove ctx mv (tick s)))).2) :=
      presPair_trans (presPair_tick s)
        (mru_pres ctx mv (tick s) _ (_alphabeta_pres ctx rootW _ _ _ _ _))
    simp only [gbmLoop]
    split
    · exact presPair_tick s
    · split <;> exact presPair_trans hstep (ih _ _ _ _ _)

theorem get_best_move_pres {B M : Type} (ctx : Ctx B M) (s0 : St B) :
    presPair s0 (get_best_move ctx s0).2 := by
  simp only [get_best_move]
  have hreset : presPair s0 ({ s0 with nodes := 0, ticks := 0 } : St B) :=
    ⟨rfl, rfl, Nat.add_comm _ _⟩
  split
  · exact hreset
  · exact presPair_trans hreset (gbmLoop_pres ctx _ _ _ _ _ _ _)

/-! ## Bridging the timed search to its pure image (generous budget) -/

theorem oot_none {B M : Type} {ctx : Ctx B M} (h : ctx.limit = none)
    (s : St B) : _out_of_time ctx s = false := by
  simp [_out_of_time, h]

theorem abLoop_pure {B M : Type} (ctx : Ctx B M) (hnone : ctx.limit = none)
    (child : Score → Score → Bool → St B → Score × St B)
    (pchild : Score → Score → Bool → B → Score)
    (hcv : ∀ a b m s, (child a b m s).1 = pchild a b m s.board)
    (hcp : ∀ a b m s, presPair s (child a b m s).2) :
    ∀ (l : List M) (alpha beta value : Score) (maximizing : Bool) (s : St B),
      (abLoop ctx child l alpha beta value maximizing s).1 =
        pureLoop ctx pchild s.board l alpha beta value maximizing := by
  intro l
  induction l with
  | nil => intro alpha beta value maximizing s; rfl
  | cons mv rest ih =>
    intro alpha beta value maximizing s
    have hpres := mru_pres ctx mv (tick s) _ (hcp alpha beta (!maximizing) _)
    have hboard : (undoMove (child alpha beta (!maximizing)
        (incNodes (makeMove ctx mv (tick s)))).2).board = s.board := hpres.1
    simp only [abLoop, pureLoop, oot_none hnone, Bool.false_eq_true, if_false,
      hcv]
    have hbmk : (incNodes (makeMove ctx mv (tick s))).board =
        ctx.rules.apply_move s.board mv := rfl
    rw [hbmk]
    split
    · split
      · rfl
      · rw [ih, hboard]
    · split
      · rfl
      · rw [ih, hboard]

theorem abStep_pure {B M : Type} (ctx : Ctx B M) (hnone : ctx.limit = none)
    (rootW depthZero : Bool)
    (child : Score → Score → Bool → St B → Score × St B)
    (pchild : Score → Score → Bool → B → Score)
    (hcv : ∀ a b m s, (child a b m s).1 = pchild a b m s.board)
    (hcp : ∀ a b m s, presPair s (child a b m s).2)
    (alpha beta : Score) (maximizing : Bool) (s : St B) :
    (abStep ctx rootW depthZero child alpha beta maximizing s).1 =
      pureStep ctx rootW depthZero pchild alpha beta maximizing s.board := by
  have htb : (tick s).board = s.board := rfl
  simp only [abStep, pureStep, oot_none hnone, Bool.false_eq_true, if_false,
    htb]
  split
  · rfl
  · split
    · rfl
    · split
      · rfl
      · exact abLoop_pure ctx hnone child pchild hcv hcp _ _ _ _ _ _

/-- With a generous budget the value `_alphabeta` computes is a pure function
of the current board. -/
theorem _alphabeta_pure {B M : Type} (ctx : Ctx B M) (hnone : ctx.limit = none)
    (rootW : Bool) (depth : Nat) (alpha beta : Score) (maximizing : Bool)
    (s : St B) :
    (_alphabeta ctx rootW depth alpha beta maximizing s).1 =
      pureAB ctx rootW depth alpha beta maximizing s.board := by
  induction depth generalizing alpha beta maximizing s with
  | zero =>
    exact abStep_pure ctx hnone rootW true _ _ (fun _ _ _ _ => rfl)
      (fun _ _ _ s => presPair_refl s) alpha beta maximizing s
  | succ d ih =>
    exact abStep_pure ctx hnone rootW false _ _ (fun a b m s => ih a b m s)
      (fun a b m s => _alphabeta_pres ctx rootW d a b m s) alpha beta
      maximizing s

/-! ## Finiteness: with no deadline pressure the search value is finite -/

theorem pureLoop_fin {B M : Type} (ctx : Ctx B M)
    (pchild : Score → Score → Bool → B → Score) (b : B)
    (hc : ∀ a bt m b', ∃ v, pchild a bt m b' = Score.fin v) :
    ∀ (l : List M) (alpha beta value : Score) (maximizing : Bool),
      ((∃ w, value = Score.fin w) ∨
        (l ≠ [] ∧ value = (if maximizing then Score.negInf else Score.posInf)))
      → ∃ w, pureLoop ctx pchild b l alpha beta value maximizing =
          Score.fin w := by
  intro l
  induction l with
  | nil =>
    intro alpha beta value maximizing h
    rcases h with ⟨w, hw⟩ | ⟨hne, _⟩
    · exact ⟨w, hw⟩
    · exact absurd rfl hne
  | cons mv rest ih =>
    intro alpha beta value maximizing h
    obtain ⟨v, hv⟩ := hc alpha beta (!maximizing) (ctx.rules.apply_move b mv)
    have hval : ∃ w, (if maximizing then
        Score.maxS value (pchild alpha beta (!maximizing)
          (ctx.rules.apply_move b mv))
      else
        Score.minS value (pchild alpha beta (!maximizing)
          (ctx.rules.apply_move b mv))) = Score.fin w := by
      rcases h with ⟨w, hw⟩ | ⟨_, hw⟩
      · subst hw
        rw [hv]
        cases maximizing <;>
          simp [Score.fin_maxS, Score.fin_minS]
      · subst hw
        rw [hv]
        cases maximizing <;>
          simp [Score.maxS_negInf_left, Score.minS_posInf_left]
    simp only [pureLoop]
    cases maximizing <;> simp only [Bool.false_eq_true, if_true, if_false]
    · split
      · simpa using hval
      · exact ih _ _ _ _ (Or.inl (by simpa using hval))
    · split
      · simpa using hval
      · exact ih _ _ _ _ (Or.inl (by simpa using hval))

theorem pureStep_fin {B M : Type} (ctx : Ctx B M) (rootW depthZero : Bool)
    (pchild : Score → Score → Bool → B → Score)
    (hc : ∀ a bt m b', ∃ v, pchild a bt m b' = Score.fin v)
    (alpha beta : Score) (maximizing : Bool) (b : B) :
    ∃ v, pureStep ctx rootW depthZero pchild alpha beta maximizing b =
      Score.fin v := by
  simp only [pureStep]
  split
  · exact ⟨_, rfl⟩
  · split
    · exact ⟨_, rfl⟩
    · split
      · exact ⟨_, rfl⟩
      · exact pureLoop_fin ctx pchild b hc _ _ _ _ _
          (Or.inr ⟨by simp, rfl⟩)

theorem pureAB_fin {B M : Type} (ctx : Ctx B M) (rootW : Bool) (depth : Nat)
    (alpha beta : Score) (maximizing : Bool) (b : B) :
    ∃ v, pureAB ctx rootW depth alpha beta maximizing b = Score.fin v := by
  induction depth generalizing alpha beta maximizing b with
  | zero =>
    exact pureStep_fin ctx rootW true _ (fun _ _ _ _ => ⟨0, rfl⟩) _ _ _ _
  | succ d ih =>
    exact pureStep_fin ctx rootW false _ (fun a bt m b' => ih a bt m b') _ _ _ _

/-! ## Alpha-beta soundness (Knuth-Moore style bounds) -/

/-- The standard fail-soft guarantee for a searched value `r` against the
exact minimax value `g` in the window `(a, bt)`: a fail-low result bounds `g`
from above, a fail-high result bounds it from below, and an in-window result
is exact. -/
def KMtriple (r g a bt : Score) : Prop :=
  (r ≤ a → g ≤ r) ∧ (bt ≤ r → r ≤ g) ∧ (a < r → r < bt → r = g)

theorem KMtriple_of_eq {r g a bt : Score} (h : r = g) : KMtriple r g a bt :=
  ⟨fun _ => h ▸ Score.le_refl r, fun _ => h ▸ Score.le_refl r, fun _ _ => h⟩

/-- Running maximum of child values over a move list (Score-valued). -/
def gfoldMax {M : Type} (g : M → Score) : List M → Score → Score
  | [], acc => acc
  | mv :: rest, acc => gfoldMax g rest (Score.maxS acc (g mv))

/-- Running minimum of child values over a move list (Score-valued). -/
def gfoldMin {M : Type} (g : M → Score) : List M → Score → Score
  | [], acc => acc
  | mv :: rest, acc => gfoldMin g rest (Score.minS acc (g mv))

theorem gfoldMax_le_iff {M : Type} {g : M → Score} :
    ∀ {l : List M} {a c : Score},
      gfoldMax g l a ≤ c ↔ a ≤ c ∧ ∀ mv ∈ l, g mv ≤ c := by
  intro l
  induction l with
  | nil => intro a c; simp [gfoldMax]
  | cons mv rest ih =>
    intro a c
    simp only [gfoldMax, ih, Score.maxS_le_iff, List.mem_cons]
    constructor
    · rintro ⟨⟨h1, h2⟩, h3⟩
      exact ⟨h1, fun x hx => by rcases hx with rfl | hx; exacts [h2, h3 x hx]⟩
    · rintro ⟨h1, h2⟩
      exact ⟨⟨h1, h2 mv (Or.inl rfl)⟩, fun x hx => h2 x (Or.inr hx)⟩

theorem le_gfoldMax_iff {M : Type} {g : M → Score} :
    ∀ {l : List M} {a c : Score},
      c ≤ gfoldMax g l a ↔ c ≤ a ∨ ∃ mv ∈ l, c ≤ g mv := by
  intro l
  induction l with
  | nil => intro a c; simp [gfoldMax]
  | cons mv rest ih =>
    intro a c
    simp only [gfoldMax, ih, Score.le_maxS_iff, List.mem_cons]
    constructor
    · rintro ((h | h) | ⟨x, hx, h⟩)
      · exact Or.inl h
      · exact Or.inr ⟨mv, Or.inl rfl, h⟩
      · exact Or.inr ⟨x, Or.inr hx, h⟩
    · rintro (h | ⟨x, hx | hx, h⟩)
      · exact Or.inl (Or.inl h)
      · exact Or.inl (Or.inr (hx ▸ h))
      · exact Or.inr ⟨x, hx, h⟩

theorem le_gfoldMax_self {M : Type} {g : M → Score} {l : List M} {a : Score} :
    a ≤ gfoldMax g l a :=
  le_gfoldMax_iff.mpr (Or.inl (Score.le_refl a))

theorem gfoldMax_mem_le {M : Type} {g : M → Score} {l : List M} {a : Score}
    {mv : M} (h : mv ∈ l) : g mv ≤ gfoldMax g l a :=
  le_gfoldMax_iff.mpr (Or.inr ⟨mv, h, Score.le_refl _⟩)

theorem le_gfoldMin_iff {M : Type} {g : M → Score} :
    ∀ {l : List M} {a c : Score},
      c ≤ gfoldMin g l a ↔ c ≤ a ∧ ∀ mv ∈ l, c ≤ g mv := by
  intro l
  induction l with
  | nil => intro a c; simp [gfoldMin]
  | cons mv rest ih =>
    intro a c
    simp only [gfoldMin, ih, Score.le_minS_iff, List.mem_cons]
    constructor
    · rintro ⟨⟨h1, h2⟩, h3⟩
      exact ⟨h1, fun x hx => by rcases hx with rfl | hx; exacts [h2, h3 x hx]⟩
    · rintro ⟨h1, h2⟩
      exact ⟨⟨h1, h2 mv (Or.inl rfl)⟩, fun x hx => h2 x (Or.inr hx)⟩

theorem gfoldMin_le_iff {M : Type} {g : M → Score} :
    ∀ {l : List M} {a c : Score},
      gfoldMin g l a ≤ c ↔ a ≤ c ∨ ∃ mv ∈ l, g mv ≤ c := by
  intro l
  induction l with
  | nil => intro a c; simp [gfoldMin]
  | cons mv rest ih =>
    intro a c
    simp only [gfoldMin, ih, Score.minS_le_iff, List.mem_cons]
    constructor
    · rintro ((h | h) | ⟨x, hx, h⟩)
      · exact Or.inl h
      · exact Or.inr ⟨mv, Or.inl rfl, h⟩
      · exact Or.inr ⟨x, Or.inr hx, h⟩
    · rintro (h | ⟨x, hx | hx, h⟩)
      · exact Or.inl (Or.inl h)
      · exact Or.inl (Or.inr (hx ▸ h))
      · exact Or.inr ⟨x, hx, h⟩

theorem gfoldMin_le_self {M : Type} {g : M → Score} {l : List M} {a : Score} :
    gfoldMin g l a ≤ a :=
  gfoldMin_le_iff.mpr (Or.inl (Score.le_refl a))

theorem gfoldMin_le_mem {M : Type} {g : M → Score} {l : List M} {a : Score}
    {mv : M} (h : mv ∈ l) : gfoldMin g l a ≤ g mv :=
  gfoldMin_le_iff.mpr (Or.inr ⟨mv, h, Score.le_refl _⟩)

theorem gfoldMax_fin {M : Type} (gI : M → Int) :
    ∀ (l : List M) (a : Int),
      gfoldMax (fun mv => Score.fin (gI mv)) l (Score.fin a) =
        Score.fin (l.foldl (fun acc mv => max acc (gI mv)) a) := by
  intro l
  induction l with
  | nil => intro a; rfl
  | cons mv rest ih =>
    intro a
    simp only [gfoldMax, List.foldl_cons, Score.fin_maxS, ih]

theorem gfoldMin_fin {M : Type} (gI : M → Int) :
    ∀ (l : List M) (a : Int),
      gfoldMin (fun mv => Score.fin (gI mv)) l (Score.fin a) =
        Score.fin (l.foldl (fun acc mv => min acc (gI mv)) a) := by
  intro l
  induction l with
  | nil => intro a; rfl
  | cons mv rest ih =>
    intro a
    simp only [gfoldMin, List.foldl_cons, Score.fin_minS, ih]

theorem pureLoop_cons_max {B M : Type} (ctx : Ctx B M)
    (pc : Score → Score → Bool → B → Score) (b : B) (mv : M) (rest : List M)
    (alpha beta value : Score) :
    pureLoop ctx pc b (mv :: rest) alpha beta value true =
      (if Score.ble beta
          (Score.maxS alpha
            (Score.maxS value (pc alpha beta false (ctx.rules.apply_move b mv))))
        then Score.maxS value (pc alpha beta false (ctx.rules.apply_move b mv))
        else pureLoop ctx pc b rest
          (Score.maxS alpha
            (Score.maxS value (pc alpha beta false (ctx.rules.apply_move b mv))))
          beta
          (Score.maxS value (pc alpha beta false (ctx.rules.apply_move b mv)))
          true) := rfl

theorem pureLoop_cons_min {B M : Type} (ctx : Ctx B M)
    (pc : Score → Score → Bool → B → Score) (b : B) (mv : M) (rest : List M)
    (alpha beta value : Score) :
    pureLoop ctx pc b (mv :: rest) alpha beta value false =
      (if Score.ble
          (Score.minS beta
            (Score.minS value (pc alpha beta true (ctx.rules.apply_move b mv))))
          alpha
        then Score.minS value (pc alpha beta true (ctx.rules.apply_move b mv))
        else pureLoop ctx pc b rest alpha
          (Score.minS beta
            (Score.minS value (pc alpha beta true (ctx.rules.apply_move b mv))))
          (Score.minS value (pc alpha beta true (ctx.rules.apply_move b mv)))
          false) := rfl

/-- Fail-soft soundness of the maximizing move loop: the result dominates the
seed, and it satisfies the Knuth-Moore triple against the running maximum of
the children's exact values.  `beta` is fixed through the loop; `alpha` and
the running value evolve exactly as in the source. -/
theorem kmLoopMax {B M : Type} (ctx : Ctx B M)
    (pc : Score → Score → Bool → B → Score) (b : B) (beta : Score)
    (g : M → Score)
    (hch : ∀ (a : Score) (mv : M), a < beta →
      KMtriple (pc a beta false (ctx.rules.apply_move b mv)) (g mv) a beta) :
    ∀ (l : List M) (alpha value : Score),
      alpha < beta → value ≤ alpha →
      value ≤ pureLoop ctx pc b l alpha beta value true ∧
        KMtriple (pureLoop ctx pc b l alpha beta value true)
          (gfoldMax g l value) alpha beta := by
  intro l
  induction l with
  | nil =>
    intro alpha value hab hva
    exact ⟨Score.le_refl value, KMtriple_of_eq rfl⟩
  | cons mv rest ih =>
    intro alpha value hab hva
    have htr := hch alpha mv hab
    rw [pureLoop_cons_max]
    set v1 := pc alpha beta false (ctx.rules.apply_move b mv) with hv1def
    have hvv' : value ≤ Score.maxS value v1 := Score.le_maxS_left value v1
    have hv1v' : v1 ≤ Score.maxS value v1 := Score.le_maxS_right value v1
    have hv'a' : Score.maxS value v1 ≤
        Score.maxS alpha (Score.maxS value v1) :=
      Score.le_maxS_right alpha (Score.maxS value v1)
    have hGdef : gfoldMax g (mv :: rest) value =
        gfoldMax g rest (Score.maxS value (g mv)) := rfl
    by_cases hprune :
        Score.ble beta (Score.maxS alpha (Score.maxS value v1)) = true
    · rw [if_pos hprune]
      have hba' : beta ≤ Score.maxS alpha (Score.maxS value v1) := hprune
      have hbv' : beta ≤ Score.maxS value v1 := by
        rcases Score.le_maxS_iff.mp hba' with h | h
        · exact absurd h (Score.not_le.mpr hab)
        · exact h
      refine ⟨hvv', ?_, ?_, ?_⟩
      · intro hra
        exact absurd (Score.le_trans hbv' hra) (Score.not_le.mpr hab)
      · intro _
        rcases Score.maxS_eq_left_or_right value v1 with hh | hh
        · rw [hh] at hbv'
          exact absurd (Score.le_trans hbv' hva) (Score.not_le.mpr hab)
        · rw [hh] at hbv' ⊢
          have hgm : v1 ≤ g mv := htr.2.1 hbv'
          rw [hGdef]
          exact Score.le_trans hgm
            (Score.le_trans (Score.le_maxS_right value (g mv)) le_gfoldMax_self)
      · intro _ hrb
        exact absurd (Score.lt_of_le_of_lt hbv' hrb) (Score.lt_irrefl beta)
    · rw [if_neg hprune]
      have har' : Score.maxS alpha (Score.maxS value v1) < beta :=
        Score.not_le.mp hprune
      have hva' : Score.maxS value v1 ≤
          Score.maxS alpha (Score.maxS value v1) :=
        Score.le_maxS_right alpha (Score.maxS value v1)
      obtain ⟨hvr, htrip⟩ := ih (Score.maxS alpha (Score.maxS value v1))
        (Score.maxS value v1) har' hva'
      set r := pureLoop ctx pc b rest
        (Score.maxS alpha (Score.maxS value v1)) beta (Score.maxS value v1)
        true with hrdef
      have hvaltor : value ≤ r := Score.le_trans hvv' hvr
      rw [hGdef]
      refine ⟨hvaltor, ?_, ?_, ?_⟩
      · intro hra
        have hra' : r ≤ Score.maxS alpha (Score.maxS value v1) :=
          Score.le_trans hra (Score.le_maxS_left alpha (Score.maxS value v1))
        obtain ⟨hv'r, hrest⟩ := gfoldMax_le_iff.mp (htrip.1 hra')
        have hv1r : v1 ≤ r := Score.le_trans hv1v' hv'r
        have hgm : g mv ≤ v1 := htr.1 (Score.le_trans hv1r hra)
        exact gfoldMax_le_iff.mpr
          ⟨Score.maxS_le (Score.le_trans hvv' hv'r) (Score.le_trans hgm hv1r),
            hrest⟩
      · intro hbr
        have hrG' := htrip.2.1 hbr
        rcases le_gfoldMax_iff.mp hrG' with hrv' | ⟨x, hx, hrx⟩
        · rcases Score.maxS_eq_left_or_right value v1 with hh | hh
          · rw [hh] at hrv'
            exact absurd
              (Score.le_trans hbr (Score.le_trans hrv' hva))
              (Score.not_le.mpr hab)
          · rw [hh] at hrv'
            have hbv1 : beta ≤ v1 := Score.le_trans hbr hrv'
            have hgm : v1 ≤ g mv := htr.2.1 hbv1
            exact le_gfoldMax_iff.mpr
              (Or.inl (Score.le_trans hrv'
                (Score.le_trans hgm (Score.le_maxS_right value (g mv)))))
        · exact le_gfoldMax_iff.mpr (Or.inr ⟨x, hx, hrx⟩)
      · intro har hrb
        by_cases hra' : r ≤ Score.maxS alpha (Score.maxS value v1)
        · obtain ⟨hv'r, hrestle⟩ := gfoldMax_le_iff.mp (htrip.1 hra')
          rcases Score.le_maxS_iff.mp hra' with h | h
          · exact absurd h (Score.not_le.mpr har)
          · have hrv' : r = Score.maxS value v1 := Score.le_antisymm h hvr
            rcases Score.maxS_eq_left_or_right value v1 with hh | hh
            · rw [hh] at hrv'
              rw [hrv'] at har
              exact absurd (Score.lt_of_lt_of_le har hva)
                (Score.lt_irrefl alpha)
            · rw [hh] at hrv'
              have hexact : v1 = g mv :=
                htr.2.2 (hrv' ▸ har) (hrv' ▸ hrb)
              refine Score.le_antisymm ?_ ?_
              · exact le_gfoldMax_iff.mpr
                  (Or.inl (Score.le_trans (Score.le_of_eq (hrv'.trans hexact))
                    (Score.le_maxS_right value (g mv))))
              · exact gfoldMax_le_iff.mpr
                  ⟨Score.maxS_le (Score.le_trans hvv' hv'r)
                    (Score.le_of_eq (hexact.symm.trans hrv'.symm)), hrestle⟩
        · have har' : Score.maxS alpha (Score.maxS value v1) < r :=
            Score.not_le.mp hra'
          have hrG' : r = gfoldMax g rest (Score.maxS value v1) :=
            htrip.2.2 har' hrb
          obtain ⟨hv'r2, hrestle⟩ := gfoldMax_le_iff.mp (Score.le_of_eq hrG'.symm)
          have hgmr : g mv ≤ r := by
            by_cases hv1a : v1 ≤ alpha
            · exact Score.le_trans (htr.1 hv1a)
                (Score.le_trans hv1a (Score.le_of_lt har))
            · have hav1 : alpha < v1 := Score.not_le.mp hv1a
              have hv1r : v1 ≤ r := Score.le_trans hv1v' hv'r2
              have hv1b : v1 < beta := Score.lt_of_le_of_lt hv1r hrb
              have hexact : v1 = g mv := htr.2.2 hav1 hv1b
              exact hexact ▸ hv1r
          refine Score.le_antisymm ?_ ?_
          · rcases le_gfoldMax_iff.mp (Score.le_of_eq hrG') with h | ⟨x, hx, hxr⟩
            · have : Score.maxS value v1 < r :=
                Score.lt_of_le_of_lt hva'
                  har'
              exact absurd h (Score.not_le.mpr this)
            · exact le_gfoldMax_iff.mpr (Or.inr ⟨x, hx, hxr⟩)
          · exact gfoldMax_le_iff.mpr
              ⟨Score.maxS_le (Score.le_trans hva (Score.le_of_lt har)) hgmr,
                hrestle⟩

/-- Fail-soft soundness of the minimizing move loop, dual to `kmLoopMax`:
`alpha` is fixed through the loop; `beta` and the running value evolve exactly
as in the source. -/
theorem kmLoopMin {B M : Type} (ctx : Ctx B M)
    (pc : Score → Score → Bool → B → Score) (b : B) (alpha : Score)
    (g : M → Score)
    (hch : ∀ (bt : Score) (mv : M), alpha < bt →
      KMtriple (pc alpha bt true (ctx.rules.apply_move b mv)) (g mv) alpha bt) :
    ∀ (l : List M) (beta value : Score),
      alpha < beta → beta ≤ value →
      pureLoop ctx pc b l alpha beta value false ≤ value ∧
        KMtriple (pureLoop ctx pc b l alpha beta value false)
          (gfoldMin g l value) alpha beta := by
  intro l
  induction l with
  | nil =>
    intro beta value hab hbv
    exact ⟨Score.le_refl value, KMtriple_of_eq rfl⟩
  | cons mv rest ih =>
    intro beta value hab hbv
    have htr := hch beta mv hab
    rw [pureLoop_cons_min]
    set v1 := pc alpha beta true (ctx.rules.apply_move b mv) with hv1def
    have hv'v : Score.minS value v1 ≤ value := Score.minS_le_left value v1
    have hv'v1 : Score.minS value v1 ≤ v1 := Score.minS_le_right value v1
    have hb'v' : Score.minS beta (Score.minS value v1) ≤
        Score.minS value v1 :=
      Score.minS_le_right beta (Score.minS value v1)
    have hGdef : gfoldMin g (mv :: rest) value =
        gfoldMin g rest (Score.minS value (g mv)) := rfl
    by_cases hprune :
        Score.ble (Score.minS beta (Score.minS value v1)) alpha = true
    · rw [if_pos hprune]
      have hb'a : Score.minS beta (Score.minS value v1) ≤ alpha := hprune
      have hv'a : Score.minS value v1 ≤ alpha := by
        rcases Score.minS_le_iff.mp hb'a with h | h
        · exact absurd h (Score.not_le.mpr hab)
        · exact h
      refine ⟨hv'v, ?_, ?_, ?_⟩
      · intro _
        rcases Score.minS_eq_left_or_right value v1 with hh | hh
        · rw [hh] at hv'a
          exact absurd (Score.le_trans hbv hv'a) (Score.not_le.mpr hab)
        · rw [hh] at hv'a ⊢
          have hgm : g mv ≤ v1 := htr.1 hv'a
          rw [hGdef]
          exact Score.le_trans gfoldMin_le_self
            (Score.le_trans (Score.minS_le_right value (g mv)) hgm)
      · intro hbr
        exact absurd (Score.le_trans hbr hv'a) (Score.not_le.mpr hab)
      · intro har _
        exact absurd (Score.lt_of_lt_of_le har hv'a) (Score.lt_irrefl alpha)
    · rw [if_neg hprune]
      have hab' : alpha < Score.minS beta (Score.minS value v1) :=
        Score.not_le.mp hprune
      obtain ⟨hrv, htrip⟩ := ih (Score.minS beta (Score.minS value v1))
        (Score.minS value v1) hab' hb'v'
      set r := pureLoop ctx pc b rest alpha
        (Score.minS beta (Score.minS value v1)) (Score.minS value v1) false
        with hrdef
      have hrval : r ≤ value := Score.le_trans hrv hv'v
      rw [hGdef]
      refine ⟨hrval, ?_, ?_, ?_⟩
      · intro hra
        have hG' := htrip.1 hra
        rcases gfoldMin_le_iff.mp hG' with hv'r | ⟨x, hx, hxr⟩
        · rcases Score.minS_eq_left_or_right value v1 with hh | hh
          · rw [hh] at hv'r
            exact absurd
              (Score.le_trans hbv (Score.le_trans hv'r hra))
              (Score.not_le.mpr hab)
          · rw [hh] at hv'r
            have hgm : g mv ≤ v1 := htr.1 (Score.le_trans hv'r hra)
            exact gfoldMin_le_iff.mpr
              (Or.inl (Score.le_trans (Score.minS_le_right value (g mv))
                (Score.le_trans hgm hv'r)))
        · exact gfoldMin_le_iff.mpr (Or.inr ⟨x, hx, hxr⟩)
      · intro hbr
        have hbr' : Score.minS beta (Score.minS value v1) ≤ r :=
          Score.le_trans (Score.minS_le_left beta (Score.minS value v1)) hbr
        obtain ⟨hrv', hrrest⟩ := le_gfoldMin_iff.mp (htrip.2.1 hbr')
        have hrv1 : r ≤ v1 := Score.le_trans hrv' hv'v1
        have hgm : v1 ≤ g mv := htr.2.1 (Score.le_trans hbr hrv1)
        exact le_gfoldMin_iff.mpr
          ⟨Score.le_minS (Score.le_trans hrv' hv'v)
            (Score.le_trans hrv1 hgm), hrrest⟩
      · intro har hrb
        by_cases hbr' : Score.minS beta (Score.minS value v1) ≤ r
        · obtain ⟨hrv', hrrest⟩ := le_gfoldMin_iff.mp (htrip.2.1 hbr')
          rcases Score.minS_le_iff.mp hbr' with h | h
          · exact absurd h (Score.not_le.mpr hrb)
          · have hrveq : r = Score.minS value v1 := Score.le_antisymm hrv h
            rcases Score.minS_eq_left_or_right value v1 with hh | hh
            · rw [hh] at hrveq
              rw [hrveq] at hrb
              exact absurd (Score.lt_of_le_of_lt hbv hrb)
                (Score.lt_irrefl beta)
            · rw [hh] at hrveq
              have hexact : v1 = g mv :=
                htr.2.2 (hrveq ▸ har) (hrveq ▸ hrb)
              refine Score.le_antisymm ?_ ?_
              · exact le_gfoldMin_iff.mpr
                  ⟨Score.le_minS (Score.le_trans hrv hv'v)
                    (Score.le_of_eq (hrveq.trans hexact)), hrrest⟩
              · exact gfoldMin_le_iff.mpr
                  (Or.inl (Score.le_trans (Score.minS_le_right value (g mv))
                    (Score.le_of_eq (hexact.symm.trans hrveq.symm))))
        · have hrb'' : r < Score.minS beta (Score.minS value v1) :=
            Score.not_le.mp hbr'
          have hrG' : r = gfoldMin g rest (Score.minS value v1) :=
            htrip.2.2 har hrb''
          obtain ⟨hrv'2, hrrest⟩ := le_gfoldMin_iff.mp (Score.le_of_eq hrG')
          have hrgm : r ≤ g mv := by
            by_cases hbv1 : beta ≤ v1
            · have hgm : v1 ≤ g mv := htr.2.1 hbv1
              exact Score.le_trans
                (Score.le_of_lt (Score.lt_of_lt_of_le hrb hbv1)) hgm
            · have hv1b : v1 < beta := Score.not_le.mp hbv1
              have hrv1 : r ≤ v1 := Score.le_trans hrv'2 hv'v1
              have hav1 : alpha < v1 := Score.lt_of_lt_of_le har hrv1
              have hexact : v1 = g mv := htr.2.2 hav1 hv1b
              exact hexact ▸ hrv1
          refine Score.le_antisymm ?_ ?_
          · exact le_gfoldMin_iff.mpr
              ⟨Score.le_minS
                (Score.le_trans (Score.le_of_lt hrb) hbv) hrgm, hrrest⟩
          · rcases gfoldMin_le_iff.mp (Score.le_of_eq hrG'.symm) with h | ⟨x, hx, hxr⟩
            · have : r < Score.minS value v1 :=
                Score.lt_of_lt_of_le hrb'' hb'v'
              exact absurd h (Score.not_le.mpr this)
            · exact gfoldMin_le_iff.mpr (Or.inr ⟨x, hx, hxr⟩)

/-- Knuth-Moore soundness of the pure alpha-beta search against the exact
minimax value: fail-low results bound it from above, fail-high from below,
and in-window results are exact. -/
theorem km_pureAB {B M : Type} (ctx : Ctx B M) (rootW : Bool) :
    ∀ (d : Nat) (maximizing : Bool) (alpha beta : Score) (b : B),
      alpha < beta →
      KMtriple (pureAB ctx rootW d alpha beta maximizing b)
        (Score.fin (minimaxVal ctx rootW d maximizing b)) alpha beta := by
  intro d
  induction d with
  | zero =>
    intro maximizing alpha beta b _
    apply KMtriple_of_eq
    by_cases h1 : ctx.rules.game_state b = GameState.checkmate <;>
      simp [pureAB, minimaxVal, pureStep, mmStep, h1]
  | succ d ih =>
    intro maximizing alpha beta b hab
    by_cases h1 : ctx.rules.game_state b = GameState.checkmate
    · apply KMtriple_of_eq
      simp [pureAB, minimaxVal, pureStep, mmStep, h1]
    · by_cases h2 : ctx.rules.game_state b = GameState.stalemate
      · apply KMtriple_of_eq
        simp [pureAB, minimaxVal, pureStep, mmStep, h1, h2]
      · cases hm : ctx.rules.legal_moves b with
        | nil =>
          apply KMtriple_of_eq
          simp [pureAB, minimaxVal, pureStep, mmStep, h1, h2, hm]
        | cons m rest =>
          cases maximizing
          · have hres : pureAB ctx rootW (d + 1) alpha beta false b =
                pureLoop ctx (pureAB ctx rootW d) b (m :: rest) alpha beta
                  Score.posInf false := by
              simp [pureAB, pureStep, h1, h2, hm]
            have hgm : gfoldMin
                (fun mv => Score.fin (minimaxVal ctx rootW d true
                  (ctx.rules.apply_move b mv))) (m :: rest) Score.posInf =
                Score.fin (minimaxVal ctx rootW (d + 1) false b) := by
              show gfoldMin _ rest
                (Score.minS Score.posInf (Score.fin (minimaxVal ctx rootW d
                  true (ctx.rules.apply_move b m)))) = _
              rw [Score.minS_posInf_left,
                gfoldMin_fin (fun mv => minimaxVal ctx rootW d true
                  (ctx.rules.apply_move b mv)) rest]
              congr 1
              simp [minimaxVal, mmStep, h1, h2, hm]
            rw [hres, ← hgm]
            exact (kmLoopMin ctx (pureAB ctx rootW d) b alpha _
              (fun bt mv h => ih true alpha bt (ctx.rules.apply_move b mv) h)
              (m :: rest) beta Score.posInf hab (Score.le_posInf beta)).2
          · have hres : pureAB ctx rootW (d + 1) alpha beta true b =
                pureLoop ctx (pureAB ctx rootW d) b (m :: rest) alpha beta
                  Score.negInf true := by
              simp [pureAB, pureStep, h1, h2, hm]
            have hgm : gfoldMax
                (fun mv => Score.fin (minimaxVal ctx rootW d false
                  (ctx.rules.apply_move b mv))) (m :: rest) Score.negInf =
                Score.fin (minimaxVal ctx rootW (d + 1) true b) := by
              show gfoldMax _ rest
                (Score.maxS Score.negInf (Score.fin (minimaxVal ctx rootW d
                  false (ctx.rules.apply_move b m)))) = _
              rw [Score.maxS_negInf_left,
                gfoldMax_fin (fun mv => minimaxVal ctx rootW d false
                  (ctx.rules.apply_move b mv)) rest]
              congr 1
              simp [minimaxVal, mmStep, h1, h2, hm]
            rw [hres, ← hgm]
            exact (kmLoopMax ctx (pureAB ctx rootW d) b beta _
              (fun a mv h => ih false a beta (ctx.rules.apply_move b mv) h)
              (m :: rest) alpha Score.negInf hab (Score.negInf_le alpha)).2

theorem Score.maxS_eq_left {a b : Score} (h : b ≤ a) : Score.maxS a b = a := by
  unfold Score.maxS
  split
  · exact Score.le_antisymm h (by assumption)
  · rfl

theorem Score.negInf_lt_posInf : Score.negInf < Score.posInf := by
  simp [Score.lt_def, Score.ble]

theorem gbmLoop_cons_none {B M : Type} {ctx : Ctx B M}
    (hnone : ctx.limit = none) (rootW : Bool) (mv : M) (rest : List M)
    (alpha beta best_val : Score) (best_move : M) (s : St B) :
    gbmLoop ctx rootW (mv :: rest) alpha beta best_val best_move s =
      (if best_val <
          (_alphabeta ctx rootW (ctx.depth - 1) alpha beta false
            (incNodes (makeMove ctx mv (tick s)))).1 then
        gbmLoop ctx rootW rest
          (Score.maxS alpha
            (_alphabeta ctx rootW (ctx.depth - 1) alpha beta false
              (incNodes (makeMove ctx mv (tick s)))).1) beta
          (_alphabeta ctx rootW (ctx.depth - 1) alpha beta false
            (incNodes (makeMove ctx mv (tick s)))).1 mv
          (undoMove (_alphabeta ctx rootW (ctx.depth - 1) alpha beta false
            (incNodes (makeMove ctx mv (tick s)))).2)
      else
        gbmLoop ctx rootW rest
          (Score.maxS alpha
            (_alphabeta ctx rootW (ctx.depth - 1) alpha beta false
              (incNodes (makeMove ctx mv (tick s)))).1) beta
          best_val best_move
          (undoMove (_alphabeta ctx rootW (ctx.depth - 1) alpha beta false
            (incNodes (makeMove ctx mv (tick s)))).2)) := by
  simp only [gbmLoop, oot_none hnone, Bool.false_eq_true, if_false]

/-- The root loop invariant under a generous budget: seeded with an incumbent
whose (finite) value equals the spec's running best, the root loop computes
exactly the spec's earliest-argmax selection over exact minimax values. -/
theorem gbmLoop_minimax {B M : Type} (ctx : Ctx B M) (hnone : ctx.limit = none)
    (rootW : Bool) (b : B) :
    ∀ (l : List M) (bm : M) (bv : Int) (s : St B),
      s.board = b →
      (gbmLoop ctx rootW l (Score.fin bv) Score.posInf (Score.fin bv) bm s).1 =
        specSelect (fun mv => minimaxVal ctx rootW (ctx.depth - 1) false
          (ctx.rules.apply_move b mv)) l bm bv := by
  intro l
  induction l with
  | nil => intro bm bv s _; rfl
  | cons mv rest ih =>
    intro bm bv s hb
    rw [gbmLoop_cons_none hnone]
    have hs2b : (incNodes (makeMove ctx mv (tick s))).board =
        ctx.rules.apply_move b mv := by
      simp [incNodes, makeMove, tick, hb]
    have hs3b : (undoMove (_alphabeta ctx rootW (ctx.depth - 1) (Score.fin bv)
        Score.posInf false (incNodes (makeMove ctx mv (tick s)))).2).board =
        b := by
      have h := mru_pres ctx mv (tick s) _
        (_alphabeta_pres ctx rootW (ctx.depth - 1) (Score.fin bv) Score.posInf
          false (incNodes (makeMove ctx mv (tick s))))
      rw [h.1]
      exact hb
    have hval : (_alphabeta ctx rootW (ctx.depth - 1) (Score.fin bv)
        Score.posInf false (incNodes (makeMove ctx mv (tick s)))).1 =
        pureAB ctx rootW (ctx.depth - 1) (Score.fin bv) Score.posInf false
          (ctx.rules.apply_move b mv) := by
      rw [_alphabeta_pure ctx hnone, hs2b]
    obtain ⟨w, hw⟩ := pureAB_fin ctx rootW (ctx.depth - 1) (Score.fin bv)
      Score.posInf false (ctx.rules.apply_move b mv)
    have htr := km_pureAB ctx rootW (ctx.depth - 1) false (Score.fin bv)
      Score.posInf (ctx.rules.apply_move b mv) (Score.fin_lt_posInf bv)
    set g := fun mv' => minimaxVal ctx rootW (ctx.depth - 1) false
      (ctx.rules.apply_move b mv') with hgdef
    by_cases hlt : Score.fin bv <
        (_alphabeta ctx rootW (ctx.depth - 1) (Score.fin bv) Score.posInf false
          (incNodes (makeMove ctx mv (tick s)))).1
    · rw [if_pos hlt]
      have hwin : pureAB ctx rootW (ctx.depth - 1) (Score.fin bv) Score.posInf
          false (ctx.rules.apply_move b mv) = Score.fin (g mv) := by
        apply htr.2.2
        · rw [← hval]; exact hlt
        · rw [hw]; exact Score.fin_lt_posInf w
      have hvg : (_alphabeta ctx rootW (ctx.depth - 1) (Score.fin bv)
          Score.posInf false (incNodes (makeMove ctx mv (tick s)))).1 =
          Score.fin (g mv) := hval.trans hwin
      have hbvg : bv < g mv := by
        rw [hvg] at hlt
        exact Score.fin_lt_fin.mp hlt
      have hmax : Score.maxS (Score.fin bv) (Score.fin (g mv)) =
          Score.fin (g mv) := by
        rw [Score.fin_maxS]
        congr 1
        omega
      rw [hvg, hmax, ih mv (g mv) _ hs3b]
      simp only [specSelect, hgdef]
      rw [if_pos hbvg]
    · rw [if_neg hlt]
      have hle : (_alphabeta ctx rootW (ctx.depth - 1) (Score.fin bv)
          Score.posInf false (incNodes (makeMove ctx mv (tick s)))).1 ≤
          Score.fin bv := Score.not_lt.mp hlt
      have hgle : Score.fin (g mv) ≤ Score.fin bv := by
        refine Score.le_trans ?_ hle
        rw [hval]
        exact htr.1 (by rw [← hval]; exact hle)
      have hbvg : ¬ bv < g mv := by
        have := Score.fin_le_fin.mp hgle
        omega
      have hmax : Score.maxS (Score.fin bv)
          (_alphabeta ctx rootW (ctx.depth - 1) (Score.fin bv) Score.posInf
            false (incNodes (makeMove ctx mv (tick s)))).1 = Score.fin bv :=
        Score.maxS_eq_left hle
      rw [hmax, ih bm bv _ hs3b]
      simp only [specSelect, hgdef]
      rw [if_neg hbvg]

/-- Under a generous budget the root move returned by the pruned search is
exactly the unpruned minimax root selection. -/
theorem get_best_move_minimax {B M : Type} (ctx : Ctx B M) (s0 : St B)
    (hnone : ctx.limit = none)
    (hne : ctx.rules.legal_moves s0.board ≠ []) :
    (get_best_move ctx s0).1 = minimaxRootSpec ctx s0.board := by
  cases hm : ctx.rules.legal_moves s0.board with
  | nil => exact absurd hm hne
  | cons m rest =>
    simp only [get_best_move, minimaxRootSpec]
    rw [hm]
    simp only []
    set s := ({ s0 with nodes := 0, ticks := 0 } : St B) with hsdef
    have hsb : s.board = s0.board := rfl
    set rootW := ctx.rules.white_to_move s0.board with hrw
    set g := fun mv => minimaxVal ctx rootW (ctx.depth - 1) false
      (ctx.rules.apply_move s0.board mv) with hgdef
    rw [gbmLoop_cons_none hnone]
    have hs2b : (incNodes (makeMove ctx m (tick s))).board =
        ctx.rules.apply_move s0.board m := rfl
    have hs3b : (undoMove (_alphabeta ctx rootW (ctx.depth - 1) Score.negInf
        Score.posInf false (incNodes (makeMove ctx m (tick s)))).2).board =
        s0.board := by
      have h := mru_pres ctx m (tick s) _
        (_alphabeta_pres ctx rootW (ctx.depth - 1) Score.negInf Score.posInf
          false (incNodes (makeMove ctx m (tick s))))
      rw [h.1]
      rfl
    have hval : (_alphabeta ctx rootW (ctx.depth - 1) Score.negInf
        Score.posInf false (incNodes (makeMove ctx m (tick s)))).1 =
        pureAB ctx rootW (ctx.depth - 1) Score.negInf Score.posInf false
          (ctx.rules.apply_move s0.board m) := by
      rw [_alphabeta_pure ctx hnone, hs2b]
    obtain ⟨w, hw⟩ := pureAB_fin ctx rootW (ctx.depth - 1) Score.negInf
      Score.posInf false (ctx.rules.apply_move s0.board m)
    have htr := km_pureAB ctx rootW (ctx.depth - 1) false Score.negInf
      Score.posInf (ctx.rules.apply_move s0.board m) Score.negInf_lt_posInf
    have hwin : pureAB ctx rootW (ctx.depth - 1) Score.negInf Score.posInf
        false (ctx.rules.apply_move s0.board m) = Score.fin (g m) := by
      apply htr.2.2
      · rw [hw]; exact Score.negInf_lt_fin w
      · rw [hw]; exact Score.fin_lt_posInf w
    have hvg : (_alphabeta ctx rootW (ctx.depth - 1) Score.negInf Score.posInf
        false (incNodes (makeMove ctx m (tick s)))).1 = Score.fin (g m) :=
      hval.trans hwin
    have hlt : Score.negInf < (_alphabeta ctx rootW (ctx.depth - 1)
        Score.negInf Score.posInf false
        (incNodes (makeMove ctx m (tick s)))).1 := by
      rw [hvg]; exact Score.negInf_lt_fin (g m)
    rw [if_pos hlt, hvg, Score.maxS_negInf_left,
      gbmLoop_minimax ctx hnone rootW s0.board rest m (g m) _ hs3b]

/-! ## The root loop as a selection over the examined prefix (claim C7) -/

theorem gbmLoop_selFold {B M : Type} (ctx : Ctx B M) (rootW : Bool) :
    ∀ (l : List M) (alpha beta bv : Score) (bm : M) (s : St B),
      gbmLoop ctx rootW l alpha beta bv bm s =
        (selFold bv bm (rootExamined ctx rootW l alpha beta s).1,
          (rootExamined ctx rootW l alpha beta s).2) := by
  intro l
  induction l with
  | nil => intro alpha beta bv bm s; rfl
  | cons mv rest ih =>
    intro alpha beta bv bm s
    simp only [gbmLoop, rootExamined]
    by_cases hoot : _out_of_time ctx s = true
    · rw [if_pos hoot, if_pos hoot]
      rfl
    · rw [if_neg hoot, if_neg hoot]
      simp only [selFold]
      split
      · rw [ih]
      · rw [ih]

theorem rootExamined_take {B M : Type} (ctx : Ctx B M) (rootW : Bool) :
    ∀ (l : List M) (alpha beta : Score) (s : St B),
      (rootExamined ctx rootW l alpha beta s).1.map Prod.fst =
        l.take (rootExamined ctx rootW l alpha beta s).1.length := by
  intro l
  induction l with
  | nil => intro alpha beta s; rfl
  | cons mv rest ih =>
    intro alpha beta s
    simp only [rootExamined]
    by_cases hoot : _out_of_time ctx s = true
    · rw [if_pos hoot]
      rfl
    · rw [if_neg hoot]
      simp only [List.map_cons, List.length_cons, List.take_succ_cons]
      rw [ih]

/-- The strict-improvement fold is an earliest-argmax: either nothing beat the
incumbent (and every examined value is at most the seed), or the result is an
examined pair that strictly beats the seed, is maximal among all examined
values, and strictly dominates every earlier examined value. -/
theorem selFold_argmax {M : Type} :
    ∀ (pairs : List (M × Score)) (bv : Score) (bm : M),
      (selFold bv bm pairs = bm ∧ ∀ q ∈ pairs, q.2 ≤ bv) ∨
      (∃ i : Fin pairs.length,
        selFold bv bm pairs = (pairs.get i).1 ∧ bv < (pairs.get i).2 ∧
        (∀ j : Fin pairs.length, (pairs.get j).2 ≤ (pairs.get i).2) ∧
        (∀ j : Fin pairs.length, j.1 < i.1 →
          (pairs.get j).2 < (pairs.get i).2)) := by
  intro pairs
  induction pairs with
  | nil => intro bv bm; exact Or.inl ⟨rfl, by simp⟩
  | cons p rest ih =>
    intro bv bm
    obtain ⟨mv, v⟩ := p
    by_cases hlt : bv < v
    · rcases ih v mv with ⟨hsel, hall⟩ | ⟨i, hsel, hvi, hmax, hstrict⟩
      · refine Or.inr ⟨⟨0, by simp⟩, ?_, ?_, ?_, ?_⟩
        · simpa [selFold, hlt] using hsel
        · exact hlt
        · intro j
          rcases j with ⟨j, hj⟩
          cases j with
          | zero => exact Score.le_refl v
          | succ k =>
            exact hall _ (List.get_mem rest k (by simpa using hj))
        · intro j hj
          simp at hj
      · refine Or.inr ⟨⟨i.1 + 1, by simpa using i.2⟩, ?_, ?_, ?_, ?_⟩
        · simpa [selFold, hlt] using hsel
        · exact Score.lt_of_lt_of_le hlt (Score.le_of_lt hvi)
        · intro j
          rcases j with ⟨j, hj⟩
          cases j with
          | zero => exact Score.le_of_lt hvi
          | succ k => exact hmax ⟨k, by simpa using hj⟩
        · intro j hj
          rcases j with ⟨j, hj'⟩
          cases j with
          | zero => exact hvi
          | succ k => exact hstrict ⟨k, by simpa using hj'⟩ (by simpa using hj)
    · have hvbv : v ≤ bv := Score.not_lt.mp hlt
      rcases ih bv bm with ⟨hsel, hall⟩ | ⟨i, hsel, hvi, hmax, hstrict⟩
      · refine Or.inl ⟨by simpa [selFold, hlt] using hsel, ?_⟩
        intro q hq
        rcases List.mem_cons.mp hq with rfl | hq
        · exact hvbv
        · exact hall q hq
      · refine Or.inr ⟨⟨i.1 + 1, by simpa using i.2⟩, ?_, ?_, ?_, ?_⟩
        · simpa [selFold, hlt] using hsel
        · exact hvi
        · intro j
          rcases j with ⟨j, hj⟩
          cases j with
          | zero => exact Score.le_trans hvbv (Score.le_of_lt hvi)
          | succ k => exact hmax ⟨k, by simpa using hj⟩
        · intro j hj
          rcases j with ⟨j, hj'⟩
          cases j with
          | zero => exact Score.lt_of_le_of_lt hvbv hvi
          | succ k => exact hstrict ⟨k, by simpa using hj'⟩ (by simpa using hj)

/-! ## Evaluator lemmas: mirror antisymmetry and the heuristic bound -/

theorem pst_mirror (cfg : Config) (p : Piece) (r c : Nat)
    (hr : r < BOARD_HEIGHT) :
    _pst_value cfg (mirrorPiece p) r c =
      -_pst_value cfg p (BOARD_HEIGHT - 1 - r) c := by
  have h7 : BOARD_HEIGHT - 1 - (BOARD_HEIGHT - 1 - r) = r := by
    simp only [BOARD_HEIGHT] at hr ⊢
    omega
  cases p <;> simp [_pst_value, mirrorPiece, h7]

theorem cellScore_mirror (cfg : Config)
    (hv : ∀ p, cfg.pieceVal (mirrorPiece p) = -cfg.pieceVal p)
    (p : Piece) (r c : Nat) (hr : r < BOARD_HEIGHT) :
    cellScore cfg (mirrorPiece p) r c =
      -cellScore cfg p (BOARD_HEIGHT - 1 - r) c := by
  unfold cellScore
  by_cases hp : p = Piece.empty
  · subst hp
    simp [mirrorPiece]
  · have hmp : mirrorPiece p ≠ Piece.empty := by
      cases p <;> simp_all [mirrorPiece]
    rw [if_neg hmp, if_neg hp, hv, pst_mirror cfg p r c hr]
    ring

theorem boardSum_mirror (cfg : Config)
    (hv : ∀ p, cfg.pieceVal (mirrorPiece p) = -cfg.pieceVal p)
    (g : Nat → Nat → Piece) :
    boardSum cfg (mirrorGrid g) = -boardSum cfg g := by
  have hrow : ∀ r, r < BOARD_HEIGHT →
      ((List.range BOARD_WIDTH).map fun c =>
        cellScore cfg (mirrorGrid g r c) r c).sum =
      -((List.range BOARD_WIDTH).map fun c =>
        cellScore cfg (g (BOARD_HEIGHT - 1 - r) c) (BOARD_HEIGHT - 1 - r)
          c).sum := by
    intro r hr
    rw [show List.range BOARD_WIDTH = [0, 1, 2, 3] from rfl]
    simp only [List.map_cons, List.map_nil, List.sum_cons, List.sum_nil,
      mirrorGrid]
    rw [cellScore_mirror cfg hv (g (BOARD_HEIGHT - 1 - r) 0) r 0 hr,
      cellScore_mirror cfg hv (g (BOARD_HEIGHT - 1 - r) 1) r 1 hr,
      cellScore_mirror cfg hv (g (BOARD_HEIGHT - 1 - r) 2) r 2 hr,
      cellScore_mirror cfg hv (g (BOARD_HEIGHT - 1 - r) 3) r 3 hr]
    ring
  simp only [boardSum]
  rw [show List.range BOARD_HEIGHT = [0, 1, 2, 3, 4, 5, 6, 7] from rfl]
  simp only [List.map_cons, List.map_nil, List.sum_cons, List.sum_nil]
  rw [hrow 0 (by norm_num [BOARD_HEIGHT]), hrow 1 (by norm_num [BOARD_HEIGHT]),
    hrow 2 (by norm_num [BOARD_HEIGHT]), hrow 3 (by norm_num [BOARD_HEIGHT]),
    hrow 4 (by norm_num [BOARD_HEIGHT]), hrow 5 (by norm_num [BOARD_HEIGHT]),
    hrow 6 (by norm_num [BOARD_HEIGHT]), hrow 7 (by norm_num [BOARD_HEIGHT])]
  norm_num [BOARD_HEIGHT]
  try ring

theorem mirrorPiece_eq_wk (p : Piece) :
    (mirrorPiece p = Piece.wk) ↔ p = Piece.bk := by
  cases p <;> simp [mirrorPiece]

theorem mirrorPiece_eq_bk (p : Piece) :
    (mirrorPiece p = Piece.bk) ↔ p = Piece.wk := by
  cases p <;> simp [mirrorPiece]

theorem hasKing_iff (g : Nat → Nat → Piece) (w : Bool) :
    _has_king g w = true ↔
      ∃ r, r < BOARD_HEIGHT ∧ ∃ c, c < BOARD_WIDTH ∧
        g r c = (if w then Piece.wk else Piece.bk) := by
  simp [_has_king, List.any_eq_true, List.mem_range]

theorem hasKing_mirror (g : Nat → Nat → Piece) (w : Bool) :
    _has_king (mirrorGrid g) w = _has_king g (!w) := by
  have key : (_has_king (mirrorGrid g) w = true) ↔
      (_has_king g (!w) = true) := by
    rw [hasKing_iff, hasKing_iff]
    constructor
    · rintro ⟨r, hr, c, hc, h⟩
      refine ⟨BOARD_HEIGHT - 1 - r, by simp only [BOARD_HEIGHT] at hr ⊢; omega,
        c, hc, ?_⟩
      simp only [mirrorGrid] at h
      cases w
      · have h' : mirrorPiece (g (BOARD_HEIGHT - 1 - r) c) = Piece.bk := by
          simpa using h
        have hg := (mirrorPiece_eq_bk _).mp h'
        simp [hg]
      · have h' : mirrorPiece (g (BOARD_HEIGHT - 1 - r) c) = Piece.wk := by
          simpa using h
        have hg := (mirrorPiece_eq_wk _).mp h'
        simp [hg]
    · rintro ⟨r, hr, c, hc, h⟩
      refine ⟨BOARD_HEIGHT - 1 - r, by simp only [BOARD_HEIGHT] at hr ⊢; omega,
        c, hc, ?_⟩
      simp only [mirrorGrid]
      have h7 : BOARD_HEIGHT - 1 - (BOARD_HEIGHT - 1 - r) = r := by
        simp only [BOARD_HEIGHT] at hr ⊢
        omega
      rw [h7]
      cases w
      · simp only [Bool.not_false, if_true] at h
        rw [h]
        simp [mirrorPiece]
      · simp only [Bool.not_true, if_false] at h
        rw [h]
        simp [mirrorPiece]
  cases hw1 : _has_king (mirrorGrid g) w <;>
    cases hw2 : _has_king g (!w) <;> simp_all

/-- The raw evaluation sum (before root-perspective normalization) is exactly
antisymmetric under color-mirroring: pieces swapped and board flipped, side to
move flipped, check status carried over. -/
theorem rawEvaluate_mirror (cfg : Config)
    (hv : ∀ p, cfg.pieceVal (mirrorPiece p) = -cfg.pieceVal p)
    (rootW : Bool) (g : Nat → Nat → Piece) (wtm inCheck : Bool) :
    rawEvaluate cfg rootW (mirrorGrid g) (!wtm) inCheck =
      -rawEvaluate cfg rootW g wtm inCheck := by
  unfold rawEvaluate
  rw [boardSum_mirror cfg hv g, hasKing_mirror g true, hasKing_mirror g false]
  simp only [Bool.not_true, Bool.not_false]
  cases wtm <;> cases rootW <;> cases inCheck <;>
    cases hk1 : _has_king g true <;> cases hk2 : _has_king g false <;>
      simp <;> ring

theorem abs_list_sum_le :
    ∀ (l : List Int) (b : Int), (∀ x ∈ l, |x| ≤ b) →
      |l.sum| ≤ (l.length : Int) * b := by
  intro l
  induction l with
  | nil => intro b _; simp
  | cons x rest ih =>
    intro b h
    simp only [List.sum_cons, List.length_cons]
    calc |x + rest.sum| ≤ |x| + |rest.sum| := abs_add _ _
      _ ≤ b + (rest.length : Int) * b :=
        add_le_add (h x (List.mem_cons_self x rest))
          (ih b fun y hy => h y (List.mem_cons_of_mem x hy))
      _ = ((rest.length : Int) + 1) * b := by ring
      _ = (((rest.length + 1 : Nat)) : Int) * b := by push_cast; ring

theorem abs_boardSum_le (cfg : Config) (g : Nat → Nat → Piece) (Bd : Int)
    (hB : ∀ r, r < BOARD_HEIGHT → ∀ c, c < BOARD_WIDTH → ∀ p,
      |cellScore cfg p r c| ≤ Bd) :
    |boardSum cfg g| ≤ 32 * Bd := by
  have hrow : ∀ r, r < BOARD_HEIGHT →
      |((List.range BOARD_WIDTH).map fun c =>
        cellScore cfg (g r c) r c).sum| ≤ 4 * Bd := by
    intro r hr
    have h := abs_list_sum_le
      ((List.range BOARD_WIDTH).map fun c => cellScore cfg (g r c) r c) Bd
      (by
        intro x hx
        rcases List.mem_map.mp hx with ⟨c, hc, rfl⟩
        exact hB r hr c (List.mem_range.mp hc) (g r c))
    simpa [BOARD_WIDTH] using h
  have h := abs_list_sum_le
    ((List.range BOARD_HEIGHT).map fun r =>
      ((List.range BOARD_WIDTH).map fun c => cellScore cfg (g r c) r c).sum)
    (4 * Bd)
    (by
      intro x hx
      rcases List.mem_map.mp hx with ⟨r, hr, rfl⟩
      exact hrow r (List.mem_range.mp hr))
  calc |boardSum cfg g| ≤ 8 * (4 * Bd) := by simpa [BOARD_HEIGHT, boardSum] using h
    _ = 32 * Bd := by ring

theorem abs_rawEvaluate_le (cfg : Config) (rootW : Bool)
    (g : Nat → Nat → Piece) (wtm inCheck : Bool) (Bd : Int)
    (hB : ∀ r, r < BOARD_HEIGHT → ∀ c, c < BOARD_WIDTH → ∀ p,
      |cellScore cfg p r c| ≤ Bd) :
    |rawEvaluate cfg rootW g wtm inCheck| ≤ 32 * Bd + 302 := by
  have hs := abs_boardSum_le cfg g Bd hB
  rw [abs_le] at hs
  unfold rawEvaluate
  dsimp only
  split_ifs <;> (rw [abs_le]; constructor <;> omega)

/-- The mate constants strictly dominate every achievable heuristic score,
provided the per-cell material+PST entries are bounded compatibly. -/
theorem evaluate_board_dominated (cfg : Config) (rootW : Bool)
    (g : Nat → Nat → Piece) (wtm inCheck : Bool) (Bd : Int)
    (hB : ∀ r, r < BOARD_HEIGHT → ∀ c, c < BOARD_WIDTH → ∀ p,
      |cellScore cfg p r c| ≤ Bd)
    (hBd : 32 * Bd + 302 < 1000000) :
    -1000000 < evaluate_board cfg rootW g wtm inCheck ∧
      evaluate_board cfg rootW g wtm inCheck < 1000000 := by
  have h := abs_rawEvaluate_le cfg rootW g wtm inCheck Bd hB
  rw [abs_le] at h
  unfold evaluate_board
  dsimp only
  split_ifs <;> constructor <;> omega

/-- A checkmate-classified node with time remaining returns the saturating
mate score immediately — no recursion, no move made, one clock poll. -/
theorem _alphabeta_checkmate {B M : Type} (ctx : Ctx B M) (rootW : Bool)
    (depth : Nat) (alpha beta : Score) (maximizing : Bool) (s : St B)
    (hoot : _out_of_time ctx s = false)
    (hmate : ctx.rules.game_state s.board = GameState.checkmate) :
    _alphabeta ctx rootW depth alpha beta maximizing s =
      (Score.fin (if ctx.rules.white_to_move s.board = rootW then -1000000
        else 1000000), tick s) := by
  have hmate' : ctx.rules.game_state (tick s).board = GameState.checkmate :=
    hmate
  cases depth with
  | zero =>
    simp only [_alphabeta, abStep]
    rw [if_neg (by simp [hoot]), if_pos hmate']
    rfl
  | succ d =>
    simp only [_alphabeta, abStep]
    rw [if_neg (by simp [hoot]), if_pos hmate']
    rfl

theorem gbmLoop_mem {B M : Type} (ctx : Ctx B M) (rootW : Bool) :
    ∀ (l : List M) (alpha beta best_val : Score) (best_move : M) (s : St B),
      (gbmLoop ctx rootW l alpha beta best_val best_move s).1 = best_move ∨
        (gbmLoop ctx rootW l alpha beta best_val best_move s).1 ∈ l := by
  intro l
  induction l with
  | nil => intro alpha beta bv bm s; exact Or.inl rfl
  | cons mv rest ih =>
    intro alpha beta bv bm s
    simp only [gbmLoop]
    split
    · exact Or.inl rfl
    · split
      · rcases ih _ _ _ _ _ with h | h
        · exact Or.inr (h ▸ List.mem_cons_self mv rest)
        · exact Or.inr (List.mem_cons_of_mem mv h)
      · rcases ih _ _ _ _ _ with h | h
        · exact Or.inl h
        · exact Or.inr (List.mem_cons_of_mem mv h)

/-- The ordered record of (move, value) pairs the root loop of
`get_best_move` fully examines (made, searched, undone, compared) before
returning, for the given entry state. -/
def rootTrace {B M : Type} (ctx : Ctx B M) (s0 : St B) : List (M × Score) :=
  (rootExamined ctx (ctx.rules.white_to_move s0.board)
    (ctx.rules.legal_moves s0.board) Score.negInf Score.posInf
    { s0 with nodes := 0, ticks := 0 }).1

/-! ## The claims -/

/-- C1: on every run of `get_best_move` — deadline expiry and alpha-beta
pruning included — and likewise for every `_alphabeta` call, each `make_move`
issued on the shared board is paired with exactly one `undo_move` before the
issuing function returns (the ghost make/undo counters advance in lockstep),
so the board (hence grid contents and side to move) and the undo stack are
identical on return to their state at call entry. -/
theorem claim_C1 {B M : Type} (ctx : Ctx B M) (s0 : St B) (rootW : Bool)
    (depth : Nat) (alpha beta : Score) (maximizing : Bool) (s : St B) :
    ((get_best_move ctx s0).2.board = s0.board ∧
      (get_best_move ctx s0).2.history = s0.history ∧
      (get_best_move ctx s0).2.makes + s0.undos =
        (get_best_move ctx s0).2.undos + s0.makes) ∧
    ((_alphabeta ctx rootW depth alpha beta maximizing s).2.board = s.board ∧
      (_alphabeta ctx rootW depth alpha beta maximizing s).2.history =
        s.history ∧
      (_alphabeta ctx rootW depth alpha beta maximizing s).2.makes + s.undos =
        (_alphabeta ctx rootW depth alpha beta maximizing s).2.undos +
          s.makes) :=
  ⟨get_best_move_pres ctx s0,
    _alphabeta_pres ctx rootW depth alpha beta maximizing s⟩

/-- C2: for every position with at least one legal move, every fixed depth,
and no time pressure, the root move returned by the pruned search equals the
root move selected by an unpruned full minimax of the same depth over the
same game tree, with the same earliest-move tie-breaking. -/
theorem claim_C2 {B M : Type} (ctx : Ctx B M) (s0 : St B)
    (hgen : ctx.limit = none) (hdepth : 0 < ctx.depth)
    (hne : ctx.rules.legal_moves s0.board ≠ []) :
    (get_best_move ctx s0).1 = minimaxRootSpec ctx s0.board :=
  get_best_move_minimax ctx s0 hgen hne

theorem claim_C2_witness :
    (ctxNone.limit = none ∧ 0 < ctxNone.depth ∧
      ctxNone.rules.legal_moves (sInit 1).board ≠ []) ∧
    (get_best_move ctxNone (sInit 1)).1 = minimaxRootSpec ctxNone
      (sInit 1).board :=
  ⟨⟨rfl, by decide, by decide⟩,
    claim_C2 ctxNone (sInit 1) rfl (by decide) (by decide)⟩

/-- C3: whenever `get_legal_moves()` is non-empty and the budget is generous,
`get_best_move` returns a move that is an element of that sequence. -/
theorem claim_C3 {B M : Type} (ctx : Ctx B M) (s0 : St B)
    (hgen : ctx.limit = none)
    (hne : ctx.rules.legal_moves s0.board ≠ []) :
    ∃ m, (get_best_move ctx s0).1 = some m ∧
      m ∈ ctx.rules.legal_moves s0.board := by
  cases hm : ctx.rules.legal_moves s0.board with
  | nil => exact absurd hm hne
  | cons m rest =>
    simp only [get_best_move]
    rw [hm]
    refine ⟨_, rfl, ?_⟩
    rcases gbmLoop_mem ctx (ctx.rules.white_to_move s0.board) (m :: rest)
      Score.negInf Score.posInf Score.negInf m
      { s0 with nodes := 0, ticks := 0 } with h | h
    · rw [h]
      exact List.mem_cons_self m rest
    · exact h

theorem claim_C3_witness :
    (ctxNone.limit = none ∧
      ctxNone.rules.legal_moves (sInit 1).board ≠ []) ∧
    ∃ m, (get_best_move ctxNone (sInit 1)).1 = some m ∧
      m ∈ ctxNone.rules.legal_moves (sInit 1).board :=
  ⟨⟨rfl, by decide⟩, claim_C3 ctxNone (sInit 1) rfl (by decide)⟩

/-- C4: with an empty legal-move list, `get_best_move` returns the no-move
sentinel without applying any move or touching the board. -/
theorem claim_C4 {B M : Type} (ctx : Ctx B M) (s0 : St B)
    (hempty : ctx.rules.legal_moves s0.board = []) :
    (get_best_move ctx s0).1 = none ∧
    (get_best_move ctx s0).2.board = s0.board ∧
    (get_best_move ctx s0).2.history = s0.history ∧
    (get_best_move ctx s0).2.makes = s0.makes ∧
    (get_best_move ctx s0).2.undos = s0.undos := by
  simp only [get_best_move]
  rw [hempty]
  exact ⟨rfl, rfl, rfl, rfl, rfl⟩

theorem claim_C4_witness :
    ctxMate.rules.legal_moves (sInit 5).board = [] ∧
    ((get_best_move ctxMate (sInit 5)).1 = none ∧
      (get_best_move ctxMate (sInit 5)).2.board = (sInit 5).board ∧
      (get_best_move ctxMate (sInit 5)).2.history = (sInit 5).history ∧
      (get_best_move ctxMate (sInit 5)).2.makes = (sInit 5).makes ∧
      (get_best_move ctxMate (sInit 5)).2.undos = (sInit 5).undos) :=
  ⟨rfl, claim_C4 ctxMate (sInit 5) rfl⟩

/-- C5: at a checkmate-classified node with time remaining, `_alphabeta`
returns exactly −1,000,000 when the side to move is the root side and
+1,000,000 otherwise, without recursing (only the clock advances; no node is
expanded, no move made), and that magnitude strictly dominates every score
the heuristic evaluator can produce when the per-cell material+PST entries
are bounded compatibly (material sum + PST + ±2 check + ±300 kings). -/
theorem claim_C5 {B M : Type} (ctx : Ctx B M) (rootW : Bool) (depth : Nat)
    (alpha beta : Score) (maximizing : Bool) (s : St B) (Bd : Int)
    (hoot : _out_of_time ctx s = false)
    (hmate : ctx.rules.game_state s.board = GameState.checkmate)
    (hB : ∀ r, r < BOARD_HEIGHT → ∀ c, c < BOARD_WIDTH → ∀ p,
      |cellScore ctx.cfg p r c| ≤ Bd)
    (hBd : 32 * Bd + 302 < 1000000) :
    _alphabeta ctx rootW depth alpha beta maximizing s =
      (Score.fin (if ctx.rules.white_to_move s.board = rootW then -1000000
        else 1000000), tick s) ∧
    ∀ (g : Nat → Nat → Piece) (wtm inCheck rootW2 : Bool),
      -1000000 < evaluate_board ctx.cfg rootW2 g wtm inCheck ∧
        evaluate_board ctx.cfg rootW2 g wtm inCheck < 1000000 :=
  ⟨_alphabeta_checkmate ctx rootW depth alpha beta maximizing s hoot hmate,
    fun g wtm inCheck rootW2 =>
      evaluate_board_dominated ctx.cfg rootW2 g wtm inCheck Bd hB hBd⟩

theorem claim_C5_witness :
    (_out_of_time ctxMate (sInit 4) = false ∧
      ctxMate.rules.game_state (sInit 4).board = GameState.checkmate ∧
      (∀ r, r < BOARD_HEIGHT → ∀ c, c < BOARD_WIDTH → ∀ p,
        |cellScore ctxMate.cfg p r c| ≤ 100) ∧
      32 * 100 + 302 < 1000000) ∧
    (_alphabeta ctxMate true 3 Score.negInf Score.posInf true (sInit 4) =
      (Score.fin (if ctxMate.rules.white_to_move (sInit 4).board = true
        then -1000000 else 1000000), tick (sInit 4)) ∧
    ∀ (g : Nat → Nat → Piece) (wtm inCheck rootW2 : Bool),
      -1000000 < evaluate_board ctxMate.cfg rootW2 g wtm inCheck ∧
        evaluate_board ctxMate.cfg rootW2 g wtm inCheck < 1000000) :=
  ⟨⟨by decide, by decide, by decide, by decide⟩,
    claim_C5 ctxMate true 3 Score.negInf Score.posInf true (sInit 4) 100
      (by decide) (by decide) (by decide) (by decide)⟩

/-- C6 (code bug): on a black-rooted evaluation with the black side (the root)
to move and in check, `evaluate_board` returns the no-check score PLUS 2 — a
reward in the returned root-perspective score for being in check — because
the ±2 adjustment is framed root-relative but applied to the raw
white-perspective sum before the final negation.  This contradicts the
source's own comment ("If current player (to move) is in check, that's bad
for them") and the claim's direction; the magnitude 2 itself is as claimed. -/
theorem claim_C6 :
    evaluate_board demoCfg false (demoRules.grid 6) false true =
      evaluate_board_noCheck demoCfg false (demoRules.grid 6) + 2 := by
  decide

/-- C7 counterexample: with the deadline already expired at the first root
poll, `get_best_move` returns the first legal move of a two-move position
although no root move was ever applied or evaluated (zero `make_move` calls,
zero nodes expanded) — refuting "it never returns a move that was not
evaluated, including a default first-move choice taken without
comparison". -/
theorem claim_C7_counterexample :
    ctxExpired.rules.legal_moves 1 = [0, 1] ∧
    (get_best_move ctxExpired (sInit 1)).1 = some 0 ∧
    (get_best_move ctxExpired (sInit 1)).2.makes = 0 ∧
    (get_best_move ctxExpired (sInit 1)).2.nodes = 0 := by
  decide

/-- C7 (amended): the root moves actually examined before the deadline form a
prefix of the legal-move list, and `get_best_move` returns the
earliest-argmax selection over exactly the values compared for that prefix:
if at least one root move was examined, the returned move is an examined move
whose compared value is maximal (ties kept earliest); if none was examined,
the first legal move is returned by default, without evaluation. -/
theorem claim_C7_amended {B M : Type} (ctx : Ctx B M) (s0 : St B) (m : M)
    (rest : List M)
    (hlegal : ctx.rules.legal_moves s0.board = m :: rest) :
    (get_best_move ctx s0).1 =
      some (selFold Score.negInf m (rootTrace ctx s0)) ∧
    (rootTrace ctx s0).map Prod.fst =
      (m :: rest).take (rootTrace ctx s0).length ∧
    (rootTrace ctx s0 = [] →
      selFold Score.negInf m (rootTrace ctx s0) = m) ∧
    (rootTrace ctx s0 ≠ [] →
      ∃ i : Fin (rootTrace ctx s0).length,
        selFold Score.negInf m (rootTrace ctx s0) =
          ((rootTrace ctx s0).get i).1 ∧
        (∀ j : Fin (rootTrace ctx s0).length,
          ((rootTrace ctx s0).get j).2 ≤ ((rootTrace ctx s0).get i).2) ∧
        (∀ j : Fin (rootTrace ctx s0).length, j.1 < i.1 →
          ((rootTrace ctx s0).get j).2 < ((rootTrace ctx s0).get i).2)) := by
  have hroot : rootTrace ctx s0 = (rootExamined ctx
      (ctx.rules.white_to_move s0.board) (m :: rest) Score.negInf Score.posInf
      { s0 with nodes := 0, ticks := 0 }).1 := by
    rw [rootTrace, hlegal]
  have h1 : (get_best_move ctx s0).1 =
      some (selFold Score.negInf m (rootTrace ctx s0)) := by
    rw [hroot]
    simp only [get_best_move]
    rw [hlegal]
    simp only []
    rw [gbmLoop_selFold]
  have h2 : (rootTrace ctx s0).map Prod.fst =
      (m :: rest).take (rootTrace ctx s0).length := by
    rw [hroot]
    exact rootExamined_take ctx (ctx.rules.white_to_move s0.board) (m :: rest)
      Score.negInf Score.posInf { s0 with nodes := 0, ticks := 0 }
  refine ⟨h1, h2, ?_, ?_⟩
  · intro h
    rw [h]
    rfl
  · intro hne
    rcases selFold_argmax (rootTrace ctx s0) Score.negInf m with
      ⟨hsel, hall⟩ | ⟨i, hsel, _, hmax, hstrict⟩
    · cases hp : rootTrace ctx s0 with
      | nil => exact absurd hp hne
      | cons q qs =>
        rw [hp] at h2 hsel hall
        have hq1 : q.1 = m := by
          simpa [List.take_succ_cons] using congrArg (fun l => l.head?) h2
        refine ⟨⟨0, by simp⟩, ?_, ?_, ?_⟩
        · rw [hsel]
          exact hq1.symm
        · intro j
          exact Score.le_trans (hall _ (List.get_mem _ _ _))
            (Score.negInf_le _)
        · intro j hj
          simp at hj
    · exact ⟨i, hsel, hmax, hstrict⟩

theorem claim_C7_amended_witness :
    ctxNone.rules.legal_moves (sInit 1).board = [0, 1] ∧
    ((get_best_move ctxNone (sInit 1)).1 =
      some (selFold Score.negInf 0 (rootTrace ctxNone (sInit 1))) ∧
    (rootTrace ctxNone (sInit 1)).map Prod.fst =
      [0, 1].take (rootTrace ctxNone (sInit 1)).length ∧
    (rootTrace ctxNone (sInit 1) = [] →
      selFold Score.negInf 0 (rootTrace ctxNone (sInit 1)) = 0) ∧
    (rootTrace ctxNone (sInit 1) ≠ [] →
      ∃ i : Fin (rootTrace ctxNone (sInit 1)).length,
        selFold Score.negInf 0 (rootTrace ctxNone (sInit 1)) =
          ((rootTrace ctxNone (sInit 1)).get i).1 ∧
        (∀ j : Fin (rootTrace ctxNone (sInit 1)).length,
          ((rootTrace ctxNone (sInit 1)).get j).2 ≤
            ((rootTrace ctxNone (sInit 1)).get i).2) ∧
        (∀ j : Fin (rootTrace ctxNone (sInit 1)).length, j.1 < i.1 →
          ((rootTrace ctxNone (sInit 1)).get j).2 <
            ((rootTrace ctxNone (sInit 1)).get i).2))) :=
  ⟨by decide, claim_C7_amended ctxNone (sInit 1) 0 [1] (by decide)⟩

/-- C8 counterexample: when the deadline expires between `_alphabeta`'s entry
poll and its first move-loop poll (here: a one-tick budget), the move loop
breaks before examining any child and the function returns its `-inf` loop
initializer — refuting "never the -infinity or +infinity loop
initializer". -/
theorem claim_C8_counterexample :
    (_alphabeta ctxRace true 2 Score.negInf Score.posInf true (sInit 1)).1 =
      Score.negInf := by
  decide

/-- C8 (amended): whenever the deadline does not expire during the call
(generous budget), every `_alphabeta` call returns a defined, finite score —
never the ±infinity loop initializer; if the deadline expires between the
entry poll and the first loop poll of a node, that node's ±infinity
initializer can be returned and can propagate to enclosing nodes. -/
theorem claim_C8_amended {B M : Type} (ctx : Ctx B M) (rootW : Bool)
    (depth : Nat) (alpha beta : Score) (maximizing : Bool) (s : St B)
    (hgen : ctx.limit = none) :
    ∃ v, (_alphabeta ctx rootW depth alpha beta maximizing s).1 =
      Score.fin v := by
  rw [_alphabeta_pure ctx hgen]
  exact pureAB_fin ctx rootW depth alpha beta maximizing s.board

theorem claim_C8_amended_witness :
    ctxNone.limit = none ∧
    ∃ v, (_alphabeta ctxNone true 2 Score.negInf Score.posInf true
      (sInit 1)).1 = Score.fin v :=
  ⟨rfl, claim_C8_amended ctxNone true 2 Score.negInf Score.posInf true
    (sInit 1) rfl⟩

/-- C9: for every position and its color-mirrored counterpart (each piece
replaced by the opposite-color piece, board flipped vertically, side to move
flipped, check status carried over), the raw evaluation sum before
root-perspective normalization is of equal magnitude and opposite sign,
provided the configured material values are color-antisymmetric (the spec's
"sign encodes color"). -/
theorem claim_C9 (cfg : Config) (rootW : Bool) (g : Nat → Nat → Piece)
    (wtm inCheck : Bool)
    (hv : ∀ p, cfg.pieceVal (mirrorPiece p) = -cfg.pieceVal p) :
    rawEvaluate cfg rootW (mirrorGrid g) (!wtm) inCheck =
      -rawEvaluate cfg rootW g wtm inCheck :=
  rawEvaluate_mirror cfg hv rootW g wtm inCheck

theorem claim_C9_witness :
    (∀ p, demoCfg.pieceVal (mirrorPiece p) = -demoCfg.pieceVal p) ∧
    rawEvaluate demoCfg true (mirrorGrid (demoRules.grid 6)) (!true) true =
      -rawEvaluate demoCfg true (demoRules.grid 6) true true :=
  ⟨by decide, claim_C9 demoCfg true (demoRules.grid 6) true true (by decide)⟩

/-- C10: if the deadline has already expired when `get_best_move` performs
its first root poll (a zero budget) on a position with at least one legal
move, the first move in `get_legal_moves()` order is returned without
applying or evaluating any move (no node expanded, no `make_move` issued, the
board untouched), and the no-move sentinel is never returned for a non-empty
legal-move list. -/
theorem claim_C10 {B M : Type} (ctx : Ctx B M) (s0 : St B) (m : M)
    (rest : List M)
    (hlegal : ctx.rules.legal_moves s0.board = m :: rest)
    (hexp : ctx.limit = some 0) :
    (get_best_move ctx s0).1 = some m ∧
    (get_best_move ctx s0).2.nodes = 0 ∧
    (get_best_move ctx s0).2.makes = s0.makes ∧
    (get_best_move ctx s0).2.board = s0.board := by
  simp only [get_best_move]
  rw [hlegal]
  simp only [gbmLoop]
  rw [if_pos (show _out_of_time ctx
    ({ s0 with nodes := 0, ticks := 0 } : St B) = true by
      simp [_out_of_time, hexp])]
  exact ⟨rfl, rfl, rfl, rfl⟩

theorem claim_C10_witness :
    (ctxExpired.rules.legal_moves (sInit 1).board = [0, 1] ∧
      ctxExpired.limit = some 0) ∧
    ((get_best_move ctxExpired (sInit 1)).1 = some 0 ∧
      (get_best_move ctxExpired (sInit 1)).2.nodes = 0 ∧
      (get_best_move ctxExpired (sInit 1)).2.makes = (sInit 1).makes ∧
      (get_best_move ctxExpired (sInit 1)).2.board = (sInit 1).board) :=
  ⟨⟨by decide, rfl⟩, claim_C10 ctxExpired (sInit 1) 0 [1] (by decide) rfl⟩
